import Mathlib

/-
Verification development for the path-matching and directory-traversal engine
in `ipfshttpclient/filescanner.py`.

Conventions of the shallow embedding:
* Paths are Lean `String`s; the platform path separator is modelled as the
  POSIX one, `'/'` (on POSIX `os.path.altsep` is `None`, so the separator
  normalization step in `GlobMatcher.__init__` is the identity and is omitted).
* `str.split(sep)` for a one-character separator is modelled by `pySplit`.
* A compiled fnmatch label regex is modelled by its token list (`GlobTok`):
  `fnmatch.translate` produces a regex that is anchored on both sides
  (`(?s:...)\Z` matched with `re.match`), so a compiled label matches a
  candidate label exactly when the token list matches the whole label.
  The `(?![.])` guard prepended when `period_special` is set and the pattern
  label does not itself start with a period is modelled by the `ndot` flag.
* Python exceptions (`IndexError` from out-of-bounds list access,
  `AssertionError` / `NotImplementedError` during construction) are modelled
  with `Except`: a `.error` value means the corresponding Python code raises.
-/

set_option autoImplicit false
set_option linter.unusedVariables false

deriving instance DecidableEq for Except

namespace FileScanner

/-- Python `str.split(sep)` for a single-character separator `sep`, acting on
the character list of the string.  Like Python's `split`, the result is never
empty: splitting the empty string gives `[[]]`. -/
def pySplit (sep : Char) : List Char → List (List Char)
  | [] => [[]]
  | c :: rest =>
    if c = sep then [] :: pySplit sep rest
    else
      match pySplit sep rest with
      | [] => [[c]]
      | g :: gs => (c :: g) :: gs

theorem pySplit_ne_nil (sep : Char) : ∀ l : List Char, pySplit sep l ≠ [] := by
  intro l
  induction l with
  | nil => simp [pySplit]
  | cons c rest ih =>
    simp only [pySplit]
    split
    · simp
    · split <;> simp_all

theorem pySplit_append (sep : Char) (a b : List Char) :
    pySplit sep (a ++ sep :: b) = pySplit sep a ++ pySplit sep b := by
  induction a with
  | nil => simp [pySplit]
  | cons c rest ih =>
    by_cases hc : c = sep
    · subst hc
      simp [pySplit, ih]
    · have h1 : pySplit sep rest ≠ [] := pySplit_ne_nil sep rest
      cases hr : pySplit sep rest with
      | nil => exact absurd hr h1
      | cons g gs => simp [pySplit, hc, ih, hr]

/-- One item of a `[...]` character class in a glob label: a single character
or an inclusive range. -/
inductive ClsItem where
  | single (c : Char)
  | range (a b : Char)
deriving DecidableEq

/-- One token of the regex produced by `fnmatch.translate` for one glob label:
a literal character, `*` (= `.*`), `?` (= `.`), or a character class. -/
inductive GlobTok where
  | lit (c : Char)
  | star
  | anyc
  | cls (neg : Bool) (items : List ClsItem)
deriving DecidableEq

/-- Scan forward to the next `]`, returning the content before it and the
remainder after it; `none` if no `]` occurs (then fnmatch treats the opening
`[` as a literal). -/
def scanTo : List Char → Option (List Char × List Char)
  | [] => none
  | c :: rest =>
    if c = ']' then some ([], rest)
    else (scanTo rest).map (fun p => (c :: p.1, p.2))

theorem scanTo_rest_lt :
    ∀ (cs s r : List Char), scanTo cs = some (s, r) → r.length < cs.length := by
  intro cs
  induction cs with
  | nil => intro s r h; simp [scanTo] at h
  | cons c rest ih =>
    intro s r h
    simp only [scanTo] at h
    split at h
    · cases h
      simp only [List.length_cons]
      omega
    · cases hr : scanTo rest with
      | none => rw [hr] at h; simp at h
      | some p =>
        rw [hr] at h
        simp only [Option.map_some'] at h
        cases h
        have := ih p.1 p.2 (by rw [hr])
        simp only [List.length_cons]
        omega

/-- After the optional leading `!`, fnmatch lets a `]` appearing first stand
for itself; this models the `if pat[j] == ']': j += 1` step. -/
def classScan2 : List Char → Option (List Char × List Char)
  | ']' :: rest => (scanTo rest).map (fun p => (']' :: p.1, p.2))
  | cs => scanTo cs

/-- Model of the `[`-scanning logic of `fnmatch.translate`: returns the class
content (including a possible leading `!`) and the remainder after the
closing `]`, or `none` when the class is unterminated. -/
def classSplit : List Char → Option (List Char × List Char)
  | '!' :: rest => (classScan2 rest).map (fun p => ('!' :: p.1, p.2))
  | cs => classScan2 cs

theorem classScan2_rest_lt (cs s r : List Char) :
    classScan2 cs = some (s, r) → r.length < cs.length := by
  intro h
  unfold classScan2 at h
  split at h
  · rename_i rest
    cases hr : scanTo rest with
    | none => rw [hr] at h; simp at h
    | some p =>
      rw [hr] at h
      simp only [Option.map_some'] at h
      cases h
      have := scanTo_rest_lt rest p.1 p.2 (by rw [hr])
      simp only [List.length_cons]
      omega
  · exact scanTo_rest_lt cs s r h

theorem classSplit_rest_lt (cs s r : List Char) :
    classSplit cs = some (s, r) → r.length ≤ cs.length := by
  intro h
  unfold classSplit at h
  split at h
  · rename_i rest
    cases hr : classScan2 rest with
    | none => rw [hr] at h; simp at h
    | some p =>
      rw [hr] at h
      simp only [Option.map_some'] at h
      cases h
      have := classScan2_rest_lt rest p.1 p.2 (by rw [hr])
      simp only [List.length_cons]
      omega
  · exact Nat.le_of_lt (classScan2_rest_lt cs s r h)

/-- Parse class content into items; `a-b` (with a following character) forms
a range, everything else is a single character (a `-` at the end is literal,
as in the regex class `fnmatch.translate` emits). -/
def parseItems : List Char → List ClsItem
  | [] => []
  | a :: '-' :: b :: rest => .range a b :: parseItems rest
  | a :: rest => .single a :: parseItems rest

/-- Worker for `translateAux` with an explicit bound on the number of
characters still to be consumed.  Scanning a class consumes at least as many
characters as remain afterwards, so starting the bound at `cs.length` makes
the worker agree with the Python scanning loop while being structurally
recursive (and hence computable by the kernel). -/
def translateGo : Nat → List Char → List GlobTok
  | 0, _ => []
  | _, [] => []
  | fuel + 1, c :: rest =>
    if c = '*' then .star :: translateGo fuel rest
    else if c = '?' then .anyc :: translateGo fuel rest
    else if c = '[' then
      match classSplit rest with
      | none => .lit '[' :: translateGo fuel rest
      | some (stuff, rest2) =>
        if stuff.head? = some '!' then .cls true (parseItems stuff.tail) :: translateGo fuel rest2
        else .cls false (parseItems stuff) :: translateGo fuel rest2
    else .lit c :: translateGo fuel rest

/-- Model of `fnmatch.translate` on one glob label: `*` → any run, `?` → any
one character, `[...]` → character class (with `[!...]` negation and a
literal `[` when unterminated), anything else a literal. -/
def translateAux (cs : List Char) : List GlobTok :=
  translateGo cs.length cs

def clsItemMatch : ClsItem → Char → Bool
  | .single a, c => a == c
  | .range a b, c => decide (a ≤ c ∧ c ≤ b)

def clsMatch (items : List ClsItem) (c : Char) : Bool :=
  items.any (fun it => clsItemMatch it c)

/-- Try the continuation `f` on every suffix of the candidate (the `.*` of a
translated `*` consumes zero or more characters). -/
def starLoop (f : List Char → Bool) : List Char → Bool
  | [] => f []
  | c :: cs => f (c :: cs) || starLoop f cs

/-- Whether a token list matches a whole candidate label (the translated
label regex is anchored at both ends). -/
def toksMatch : List GlobTok → List Char → Bool
  | [], l => l.isEmpty
  | .star :: rest, l => starLoop (toksMatch rest) l
  | .anyc :: rest, l =>
    (match l with
     | [] => false
     | _ :: cs => toksMatch rest cs)
  | .lit a :: rest, l =>
    (match l with
     | [] => false
     | c :: cs => a == c && toksMatch rest cs)
  | .cls neg items :: rest, l =>
    (match l with
     | [] => false
     | c :: cs => (clsMatch items c != neg) && toksMatch rest cs)

/-- One compiled (non-`**`) pattern label: the `(?![.])` dot guard flag and
the translated token list. -/
structure CompLabel where
  ndot : Bool
  toks : List GlobTok
deriving DecidableEq

/-- Whether a compiled label regex matches a candidate label
(`self._pat[idx].match(label)` in the source, with the regex anchored on both
sides by `fnmatch.translate`). -/
def labelMatch (L : CompLabel) (l : List Char) : Bool :=
  (!L.ndot || !(l.head? == some '.')) && toksMatch L.toks l

/-- Errors raised by `GlobMatcher.__init__`: the absolute-pattern assert, the
`..`-label assert, and the `NotImplementedError` for a label mixing `**` with
other characters. -/
inductive GlobErr where
  | absolute
  | dotdot
  | mixedDblstar
deriving DecidableEq

/-- Whether `**` occurs inside a label (`dblstar in label`). -/
def hasDblstar : List Char → Bool
  | [] => false
  | c :: rest => (c == '*' && rest.head? == some '*') || hasDblstar rest

/-- The compiled state of a `GlobMatcher`: the `period_special` flag, the
`_dir_only` flag, and `_pat` (a `none` entry is the `**` recursion marker). -/
structure GlobState where
  periodSpecial : Bool
  dirOnly : Bool
  pats : List (Option CompLabel)
deriving DecidableEq

/-- The label-compilation loop of `GlobMatcher.__init__`: skip empty and `.`
labels, reject `..` labels, turn `**` into the recursion marker `none`,
reject labels mixing `**` with other characters, and compile everything else
with `fnmatch.translate` plus the optional dot guard. -/
def compileLabels (ps : Bool) : List (List Char) → Except GlobErr (List (Option CompLabel))
  | [] => .ok []
  | label :: rest =>
    if label.length < 1 ∨ label = ['.'] then compileLabels ps rest
    else if label = ['.', '.'] then .error .dotdot
    else if label = ['*', '*'] then
      match compileLabels ps rest with
      | .error e => .error e
      | .ok pats => .ok (none :: pats)
    else if hasDblstar label then .error .mixedDblstar
    else
      match compileLabels ps rest with
      | .error e => .error e
      | .ok pats => .ok (some ⟨ps && !(label.head? == some '.'), translateAux label⟩ :: pats)

/-- `GlobMatcher.__init__`: reject absolute patterns (on POSIX,
`os.path.isabs` is "starts with `/`"), record whether the pattern ends in the
separator (`_dir_only`), and compile the labels. -/
def globInit (pat : String) (periodSpecial : Bool) : Except GlobErr GlobState :=
  let p := pat.data
  if p.head? = some '/' then .error .absolute
  else
    match compileLabels periodSpecial (pySplit '/' p) with
    | .error e => .error e
    | .ok pats => .ok ⟨periodSpecial, p.getLast? == some '/', pats⟩

/-- The loop body of `GlobMatcher.should_descend`, walking the pattern and
the path labels in lockstep.  `self._pat[idx]` on an empty `_pat` raises
`IndexError`, modelled by `.error ()` (the pattern suffix can only run out
before the labels when the original `_pat` is empty, because the concrete
case stops one short of the end). -/
def descendAux (pat : List (Option CompLabel)) (ls : List (List Char)) : Except Unit Bool :=
  match pat, ls with
  | _, [] => .ok true
  | [], _ :: _ => .error ()
  | none :: _, _ :: _ => .ok true
  | some c :: pt, l :: rest =>
    if pt = [] then .ok false
    else if !labelMatch c l then .ok false
    else descendAux pt rest

/-- `GlobMatcher.should_descend`. -/
def gDescend (st : GlobState) (path : String) : Except Unit Bool :=
  descendAux st.pats (pySplit '/' path.data)

/-- The recursion loop of `GlobMatcher._match`: retry the continuation `f`
(which matches the pattern remainder starting after the `**` marker) against
every suffix of the remaining labels, stopping early at dot labels when
`period_special` is set, and propagating an exception from the inner call. -/
def tryRecF (ps : Bool) (f : List (List Char) → Except Unit Bool) :
    List (List Char) → Except Unit Bool
  | [] => .ok false
  | l :: rest =>
    match f (l :: rest) with
    | .error e => .error e
    | .ok true => .ok true
    | .ok false =>
      if ps && (l.head? == some '.') then .ok false
      else tryRecF ps f rest

/-- `GlobMatcher._match` on the pattern suffix from `idx_pat` and the label
suffix from `idx_path`.  `lastP` is `self._pat[idx_pat - 1]` as used when
`idx_pat == len(self._pat)`, i.e. the last element of the whole `_pat`
(wrapped in `Option`; `none` means `_pat` is empty, where the Python negative
index `-1` raises `IndexError`, and the `labels[idx_path]` access with the
labels exhausted likewise raises). -/
def matchL (ps isDir : Bool) (lastP : Option (Option CompLabel)) :
    List (Option CompLabel) → List (List Char) → Except Unit Bool
  | some c :: pt, ls =>
    (match ls with
     | [] => .ok isDir
     | l :: rest =>
       if !labelMatch c l then .ok false
       else matchL ps isDir lastP pt rest)
  | [], ls =>
    (match lastP with
     | none => .error ()
     | some none =>
       match ls with
       | [] => .error ()
       | l :: _ => .ok (!ps || !(l.head? == some '.'))
     | some (some _) => .ok ls.isEmpty)
  | none :: pt, ls => tryRecF ps (matchL ps isDir lastP pt) ls

/-- `GlobMatcher.should_report`. -/
def gReport (st : GlobState) (path : String) (isDir : Bool) : Except Unit Bool :=
  if st.dirOnly && !isDir then .ok false
  else matchL st.periodSpecial isDir st.pats.getLast? st.pats (pySplit '/' path.data)

theorem hasDblstar_length (label : List Char) (h : hasDblstar label = true) :
    2 ≤ label.length := by
  induction label with
  | nil => simp [hasDblstar] at h
  | cons c rest ih =>
    simp only [hasDblstar, Bool.or_eq_true, Bool.and_eq_true] at h
    rcases h with ⟨-, hh⟩ | hh
    · cases rest with
      | nil => simp at hh
      | cons d ds => simp only [List.length_cons]; omega
    · have := ih hh
      simp only [List.length_cons]
      omega

theorem compileLabels_err_cons (ps : Bool) (label : List Char) (rest : List (List Char))
    (h : ∃ e, compileLabels ps rest = .error e) :
    ∃ e, compileLabels ps (label :: rest) = .error e := by
  obtain ⟨e, he⟩ := h
  simp only [compileLabels]
  split
  · exact ⟨e, he⟩
  · split
    · exact ⟨.dotdot, rfl⟩
    · split
      · rw [he]
        exact ⟨e, rfl⟩
      · split
        · exact ⟨.mixedDblstar, rfl⟩
        · rw [he]
          exact ⟨e, rfl⟩

theorem compileLabels_err_of_dotdot (ps : Bool) :
    ∀ ls : List (List Char), ['.', '.'] ∈ ls → ∃ e, compileLabels ps ls = .error e := by
  intro ls
  induction ls with
  | nil => intro h; simp at h
  | cons label rest ih =>
    intro h
    rcases List.mem_cons.mp h with heq | hmem
    · subst heq
      exact ⟨.dotdot, by simp [compileLabels]⟩
    · exact compileLabels_err_cons ps label rest (ih hmem)

theorem compileLabels_err_of_mixed (ps : Bool) :
    ∀ (ls : List (List Char)) (label : List Char), label ∈ ls → label ≠ ['*', '*'] →
      hasDblstar label = true → ∃ e, compileLabels ps ls = .error e := by
  intro ls
  induction ls with
  | nil => intro label h; simp at h
  | cons hd rest ih =>
    intro label h hne hdbl
    rcases List.mem_cons.mp h with heq | hmem
    · subst heq
      have hlen := hasDblstar_length label hdbl
      have hc1a : ¬(label.length < 1) := by omega
      have hc1b : label ≠ ['.'] := by rintro rfl; simp [hasDblstar] at hdbl
      have hc2 : label ≠ ['.', '.'] := by rintro rfl; simp [hasDblstar] at hdbl
      refine ⟨.mixedDblstar, ?_⟩
      simp [compileLabels, hc1a, hc1b, hc2, hne, hdbl]
    · exact compileLabels_err_cons ps hd rest (ih label hmem hne hdbl)

theorem globInit_err_of_compile (pat : String) (ps : Bool)
    (h : ∃ e, compileLabels ps (pySplit '/' pat.data) = .error e) :
    ∃ e, globInit pat ps = .error e := by
  obtain ⟨e, he⟩ := h
  simp only [globInit]
  split
  · exact ⟨.absolute, rfl⟩
  · rw [he]
    exact ⟨e, rfl⟩

/-- C7: `GlobMatcher` construction fails for every absolute pattern (one
starting with the separator), for every pattern one of whose labels is `..`,
and for every pattern with a label that mixes `**` with other characters;
the rejection happens in `globInit` (the model of `__init__`), i.e. at
construction time. -/
theorem c7_glob_construction_rejects :
    (∀ (pat : String) (ps : Bool), pat.data.head? = some '/' →
        globInit pat ps = .error .absolute) ∧
    (∀ (pat : String) (ps : Bool), ['.', '.'] ∈ pySplit '/' pat.data →
        ∃ e, globInit pat ps = .error e) ∧
    (∀ (pat : String) (ps : Bool) (label : List Char),
        label ∈ pySplit '/' pat.data → label ≠ ['*', '*'] → hasDblstar label = true →
        ∃ e, globInit pat ps = .error e) := by
  refine ⟨?_, ?_, ?_⟩
  · intro pat ps h
    simp [globInit, h]
  · intro pat ps h
    exact globInit_err_of_compile pat ps (compileLabels_err_of_dotdot ps _ h)
  · intro pat ps label h hne hdbl
    exact globInit_err_of_compile pat ps (compileLabels_err_of_mixed ps _ label h hne hdbl)

theorem c7_glob_construction_rejects_witness :
    (globInit "/a" true = .error .absolute) ∧
    (∃ e, globInit "a/../b" true = .error e) ∧
    (∃ e, globInit "a**/c" true = .error e) :=
  ⟨c7_glob_construction_rejects.1 "/a" true (by decide),
   c7_glob_construction_rejects.2.1 "a/../b" true (by decide),
   c7_glob_construction_rejects.2.2 "a**/c" true ['a', '*', '*'] (by decide) (by decide)
     (by decide)⟩

/-- C2: for the `GlobMatcher` compiled from `**/*.py`, `should_report`
accepts `x.py` and `a/b/x.py` (as non-directories); it refuses
`a/.git/x.py` when `period_special` is true and accepts it when
`period_special` is false. -/
theorem c2_glob_recursive_py_pattern :
    (∃ st, globInit "**/*.py" true = .ok st ∧
      gReport st "x.py" false = .ok true ∧
      gReport st "a/b/x.py" false = .ok true ∧
      gReport st "a/.git/x.py" false = .ok false) ∧
    (∃ st, globInit "**/*.py" false = .ok st ∧
      gReport st "a/.git/x.py" false = .ok true) := by
  constructor
  · exact ⟨_, rfl, by decide, by decide, by decide⟩
  · exact ⟨_, rfl, by decide⟩

/-- C9: a pattern yielding no concrete labels (the empty pattern or `.`)
constructs successfully with an empty `_pat` list, but then `should_descend`
raises `IndexError` on every path, and `should_report` raises on every path
not rejected by the directory-only precheck (modelled by `.error ()`): the
decision functions are not total over constructible matchers. -/
theorem c9_empty_pattern_not_total :
    (globInit "" true = .ok ⟨true, false, []⟩) ∧
    (globInit "." true = .ok ⟨true, false, []⟩) ∧
    (∀ (st : GlobState) (path : String), st.pats = [] →
      gDescend st path = .error ()) ∧
    (∀ (st : GlobState) (path : String) (isDir : Bool), st.pats = [] →
      ¬(st.dirOnly = true ∧ isDir = false) →
      gReport st path isDir = .error ()) := by
  refine ⟨rfl, rfl, ?_, ?_⟩
  · intro st path hp
    unfold gDescend
    rw [hp]
    cases h : pySplit '/' path.data with
    | nil => exact absurd h (pySplit_ne_nil '/' path.data)
    | cons l ls => simp [descendAux]
  · intro st path isDir hp hd
    unfold gReport
    rw [hp]
    have hcond : (st.dirOnly && !isDir) = false := by
      cases hdo : st.dirOnly <;> cases hid : isDir <;> simp_all
    rw [hcond]
    simp [matchL]

theorem descendAux_nil_right (pat : List (Option CompLabel)) :
    descendAux pat [] = .ok true := by
  cases pat with
  | nil => rfl
  | cons p pt => cases p <;> rfl

theorem descendAux_some (c : CompLabel) (pt : List (Option CompLabel))
    (l : List Char) (rest : List (List Char)) :
    descendAux (some c :: pt) (l :: rest) =
      if pt = [] then .ok false
      else if !labelMatch c l then .ok false
      else descendAux pt rest := rfl

theorem matchL_some_nil (ps isDir : Bool) (lastP : Option (Option CompLabel))
    (c : CompLabel) (pt : List (Option CompLabel)) :
    matchL ps isDir lastP (some c :: pt) [] = .ok isDir := rfl

theorem matchL_some_cons (ps isDir : Bool) (lastP : Option (Option CompLabel))
    (c : CompLabel) (pt : List (Option CompLabel)) (l : List Char) (rest : List (List Char)) :
    matchL ps isDir lastP (some c :: pt) (l :: rest) =
      if !labelMatch c l then .ok false
      else matchL ps isDir lastP pt rest := rfl

theorem matchL_nil_none (ps isDir : Bool) (ls : List (List Char)) :
    matchL ps isDir none [] ls = .error () := rfl

theorem matchL_nil_some_some (ps isDir : Bool) (c : CompLabel) (ls : List (List Char)) :
    matchL ps isDir (some (some c)) [] ls = .ok ls.isEmpty := rfl

/-- Key step for C3: whenever `should_descend` on the directory labels `dls`
does not answer `True`, `_match` cannot answer `True` on any strictly longer
label list `dls ++ xs`. -/
theorem matchL_ne_true_of_descend (ps isDir : Bool) :
    ∀ (dls : List (List Char)) (pat : List (Option CompLabel)) (xs : List (List Char)),
      pat ≠ [] → xs ≠ [] → descendAux pat dls ≠ .ok true →
      matchL ps isDir pat.getLast? pat (dls ++ xs) ≠ .ok true := by
  intro dls
  induction dls with
  | nil =>
    intro pat xs hpat hxs hd
    exact absurd (descendAux_nil_right pat) hd
  | cons l dl ih =>
    intro pat xs hpat hxs hd
    match pat with
    | none :: pt => exact absurd rfl hd
    | some c :: pt =>
      rw [List.cons_append, matchL_some_cons]
      by_cases hm : labelMatch c l = true
      · rw [hm]
        simp only [Bool.not_true, Bool.false_eq_true, if_false]
        cases pt with
        | nil =>
          have hlast : (some c :: ([] : List (Option CompLabel))).getLast? = some (some c) := rfl
          rw [hlast, matchL_nil_some_some]
          have hne : dl ++ xs ≠ [] := fun hc => hxs (List.append_eq_nil.mp hc).2
          intro hcontra
          have : (dl ++ xs).isEmpty = true := by
            have := Except.ok.inj hcontra
            exact this
          exact hne (List.isEmpty_iff.mp this)
        | cons q qt =>
          have hd' : descendAux (q :: qt) dl ≠ .ok true := by
            intro hc
            apply hd
            rw [descendAux_some]
            simp [hm, hc]
          have hlast : (some c :: q :: qt : List (Option CompLabel)).getLast? =
              (q :: qt).getLast? := List.getLast?_cons_cons
          rw [hlast]
          exact ih (q :: qt) xs (List.cons_ne_nil q qt) hxs hd'
      · simp only [Bool.not_eq_true] at hm
        rw [hm]
        simp

/-- C3: for every compiled `GlobMatcher` state, if `should_report` answers
`True` for some path strictly below the directory `d` (any path of the form
`d ++ "/" ++ s`), then `should_descend d` answers `True` — descent is never
refused for a directory under which a reportable path exists. -/
theorem c3_descend_sound (st : GlobState) (d s : String) (isDir : Bool)
    (h : gReport st (d ++ "/" ++ s) isDir = .ok true) :
    gDescend st d = .ok true := by
  by_contra hd
  have hsplit : pySplit '/' (d ++ "/" ++ s).data = pySplit '/' d.data ++ pySplit '/' s.data := by
    have hdata : (d ++ "/" ++ s).data = d.data ++ '/' :: s.data := by
      have h1 : (d ++ "/" ++ s).data = (d.data ++ ['/']) ++ s.data := rfl
      rw [h1, List.append_assoc]
      rfl
    rw [hdata, pySplit_append]
  unfold gReport at h
  split at h
  · exact absurd h (by simp)
  · rw [hsplit] at h
    unfold gDescend at hd
    cases hpat : st.pats with
    | nil =>
      rw [hpat] at h
      rw [List.getLast?_nil, matchL_nil_none] at h
      exact absurd h (by simp)
    | cons p0 pr =>
      rw [hpat] at h hd
      exact matchL_ne_true_of_descend st.periodSpecial isDir (pySplit '/' d.data)
        (p0 :: pr) (pySplit '/' s.data) (List.cons_ne_nil p0 pr)
        (pySplit_ne_nil '/' s.data) hd h

theorem c3_descend_sound_witness :
    ∃ st, globInit "a/b" true = .ok st ∧
      gReport st ("a" ++ "/" ++ "b") false = .ok true ∧
      gDescend st "a" = .ok true := by
  refine ⟨_, rfl, by decide, ?_⟩
  exact c3_descend_sound _ "a" "b" false (by decide)

theorem c9_empty_pattern_not_total_witness :
    gDescend ⟨true, false, []⟩ "x" = .error () ∧
    gReport ⟨true, false, []⟩ "x" false = .error () :=
  ⟨c9_empty_pattern_not_total.2.2.1 ⟨true, false, []⟩ "x" rfl,
   c9_empty_pattern_not_total.2.2.2 ⟨true, false, []⟩ "x" false rfl (by simp)⟩

/-- Abstract syntax of the regular expressions wrapped by `ReMatcher`.  The
source treats the compiled pattern (`re.compile(pat)`) as opaque and only
ever calls `.match` on it, so the embedding models a core regex language
with the standard semantics. -/
inductive Regex where
  | emptys
  | eps
  | chr (c : Char)
  | anyc
  | alt (a b : Regex)
  | cat (a b : Regex)
  | star (a : Regex)
deriving DecidableEq

/-- Whether the expression accepts the empty string. -/
def nullable : Regex → Bool
  | .emptys => false
  | .eps => true
  | .chr _ => false
  | .anyc => false
  | .alt a b => nullable a || nullable b
  | .cat a b => nullable a && nullable b
  | .star _ => true

/-- Brzozowski derivative with respect to one character. -/
def deriv : Regex → Char → Regex
  | .emptys, _ => .emptys
  | .eps, _ => .emptys
  | .chr c, x => if c = x then .eps else .emptys
  | .anyc, _ => .eps
  | .alt a b, x => .alt (deriv a x) (deriv b x)
  | .cat a b, x =>
    if nullable a then .alt (.cat (deriv a x) b) (deriv b x)
    else .cat (deriv a x) b
  | .star a, x => .cat (deriv a x) (.star a)

/-- Anchored whole-string matching (what `re.fullmatch` would test); used to
state what a "full-string match" of the wrapped expression means. -/
def reFull (r : Regex) : List Char → Bool
  | [] => nullable r
  | c :: cs => reFull (deriv r c) cs

/-- Python `re.Pattern.match`: true iff the expression matches some
(possibly empty, possibly proper) prefix of the candidate; it is anchored at
the start of the string only, not at the end. -/
def reMatchB (r : Regex) : List Char → Bool
  | [] => nullable r
  | c :: cs => nullable r || reMatchB (deriv r c) cs

/-- `ReMatcher.should_descend` — unconditionally `True`. -/
def reDescend (r : Regex) (path : String) : Bool := true

/-- `ReMatcher.should_report`: append the path separator when the candidate
is a directory, then test `bool(self._pat.match(path + suffix))`. -/
def reReport (r : Regex) (path : String) (isDir : Bool) : Bool :=
  reMatchB r (path.data ++ (if isDir then ['/'] else []))

theorem reFull_cons (r : Regex) (c : Char) (cs : List Char) :
    reFull r (c :: cs) = reFull (deriv r c) cs := rfl

/-- `re.Pattern.match` succeeds exactly when some split of the candidate has
a fully matched initial part. -/
theorem reMatchB_iff (r : Regex) (s : List Char) :
    reMatchB r s = true ↔ ∃ t u, s = t ++ u ∧ reFull r t = true := by
  induction s generalizing r with
  | nil =>
    constructor
    · intro h
      exact ⟨[], [], rfl, h⟩
    · rintro ⟨t, u, heq, hfull⟩
      obtain ⟨rfl, rfl⟩ := List.append_eq_nil.mp heq.symm
      exact hfull
  | cons c cs ih =>
    constructor
    · intro h
      rcases Bool.or_eq_true _ _ |>.mp h with hn | hm
      · exact ⟨[], c :: cs, rfl, hn⟩
      · obtain ⟨t, u, heq, hfull⟩ := (ih (deriv r c)).mp hm
        exact ⟨c :: t, u, by rw [List.cons_append, heq], by rw [reFull_cons]; exact hfull⟩
    · rintro ⟨t, u, heq, hfull⟩
      cases t with
      | nil =>
        simp only [List.nil_append] at heq
        subst heq
        simp only [reMatchB, Bool.or_eq_true]
        exact Or.inl hfull
      | cons t0 ts =>
        simp only [List.cons_append, List.cons.injEq] at heq
        obtain ⟨rfl, heq2⟩ := heq
        simp only [reMatchB, Bool.or_eq_true]
        exact Or.inr ((ih (deriv r c)).mpr ⟨ts, u, heq2, hfull⟩)

/-- C4 counterexample: `ReMatcher.should_report` is not a full-string match.
For the expression `re.compile("a")` and the file path `"ab"`,
`should_report` answers `True` (because `.match` only anchors at the start),
while a full-string match of the candidate fails, refuting the claimed
equivalence at this input. -/
theorem c4_rematcher_full_match_counterexample :
    ¬(reReport (.chr 'a') "ab" false = true ↔
      reFull (.chr 'a') ("ab".data ++ (if false then ['/'] else [])) = true) := by
  decide

/-- C4 (amended): `should_report` appends the separator to the candidate
when it is a directory and then tests the wrapped expression with
`re.Pattern.match`, i.e. it answers `True` iff the expression fully matches
some prefix (possibly proper) of the candidate string — anchored at the
start but not at the end. -/
theorem c4_rematcher_prefix_match (r : Regex) (path : String) (isDir : Bool) :
    reReport r path isDir = true ↔
      ∃ t u, path.data ++ (if isDir then ['/'] else []) = t ++ u ∧ reFull r t = true :=
  reMatchB_iff r _

/-- The matcher variants defined by the module: `DummyMatcher`,
`GlobMatcher`, `ReMatcher`, `MetaMatcher` and `NoRecusionAdapterMatcher`. -/
inductive MatcherV where
  | dummy
  | glob (st : GlobState)
  | remat (r : Regex)
  | meta (children : List MatcherV)
  | noRec (child : MatcherV)

mutual

/-- `should_descend` of each matcher variant. -/
def mDescend : MatcherV → String → Except Unit Bool
  | .dummy, _ => .ok true
  | .glob st, p => gDescend st p
  | .remat r, p => .ok (reDescend r p)
  | .meta cs, p => anyDescend cs p
  | .noRec _, _ => .ok false

/-- `any(m.should_descend(path) for m in self._children)`: left-to-right,
short-circuiting on the first `True`, propagating the first exception. -/
def anyDescend : List MatcherV → String → Except Unit Bool
  | [], _ => .ok false
  | m :: ms, p =>
    match mDescend m p with
    | .error e => .error e
    | .ok true => .ok true
    | .ok false => anyDescend ms p

end

mutual

/-- `should_report` of each matcher variant.  For the no-recursion adapter
the Python `and` short-circuits: a path containing the separator is refused
without consulting the wrapped matcher. -/
def mReport : MatcherV → String → Bool → Except Unit Bool
  | .dummy, _, _ => .ok true
  | .glob st, p, isDir => gReport st p isDir
  | .remat r, p, isDir => .ok (reReport r p isDir)
  | .meta cs, p, isDir => anyReport cs p isDir
  | .noRec child, p, isDir =>
    if '/' ∈ p.data then .ok false
    else mReport child p isDir

/-- `any(m.should_report(path, is_dir=is_dir) for m in self._children)`. -/
def anyReport : List MatcherV → String → Bool → Except Unit Bool
  | [], _, _ => .ok false
  | m :: ms, p, isDir =>
    match mReport m p isDir with
    | .error e => .error e
    | .ok true => .ok true
    | .ok false => anyReport ms p isDir

end

/-- C6: the no-recursion adapter never descends; it reports a path exactly
when the path is separator-free and the wrapped matcher reports it; and in
particular a path containing a separator, such as `"a/b"`, is always refused
regardless of the wrapped matcher (without even consulting it). -/
theorem c6_norecursion_adapter (child : MatcherV) (path : String) (isDir : Bool) :
    (mDescend (.noRec child) path = .ok false) ∧
    (mReport (.noRec child) path isDir = .ok true ↔
      ('/' ∉ path.data ∧ mReport child path isDir = .ok true)) ∧
    (mReport (.noRec child) "a/b" isDir = .ok false) := by
  have hstep : ∀ q : String, mReport (.noRec child) q isDir =
      if '/' ∈ q.data then .ok false else mReport child q isDir := fun q => rfl
  refine ⟨rfl, ?_, ?_⟩
  · rw [hstep]
    by_cases hp : '/' ∈ path.data
    · simp [hp]
    · simp [hp]
  · rw [hstep, if_pos (by decide)]

/-- The simplified match specification accepted by `matcher_from_spec`:
absent (`None`), a pattern string (or bytes), a compiled regular expression,
a matcher instance, or a collection of specifications. -/
inductive MatchSpec where
  | noneSpec
  | strPat (s : String)
  | rePat (r : Regex)
  | matcher (m : MatcherV)
  | coll (l : List MatchSpec)

/-- Which specifications Python's `isinstance(spec, collections.abc.Iterable)`
test accepts: collections, but also strings (strings are iterable — iterating
one yields its characters). -/
def isIterableSpec : MatchSpec → Bool
  | .strPat _ => true
  | .coll _ => true
  | _ => false

mutual

/-- The `recursive=True` branch of `matcher_from_spec`: dispatch in source
order — `None`, then `str`/`bytes`, then `re.Pattern`, then `Iterable` (the
string case has already been taken at this point), else pass the matcher
instance through unchanged. -/
def matcherFromSpecRec : MatchSpec → Bool → Except GlobErr MatcherV
  | .noneSpec, _ => .ok .dummy
  | .strPat s, ps =>
    (match globInit s ps with
     | .error e => .error e
     | .ok st => .ok (.glob st))
  | .rePat r, _ => .ok (.remat r)
  | .coll l, ps =>
    (match mapSpecs l ps with
     | .error e => .error e
     | .ok ms => .ok (.meta ms))
  | .matcher m, _ => .ok m

/-- The list comprehension
`[matcher_from_spec(s, recursive=recursive, period_special=period_special)
for s in spec]` (at this point `recursive` is `True`): left to right, the
first exception propagates. -/
def mapSpecs : List MatchSpec → Bool → Except GlobErr (List MatcherV)
  | [], _ => .ok []
  | s :: rest, ps =>
    match matcherFromSpecRec s ps with
    | .error e => .error e
    | .ok m =>
      match mapSpecs rest ps with
      | .error e => .error e
      | .ok ms => .ok (m :: ms)

end

/-- `matcher_from_spec`: when `recursive` is false, normalize with
`recursive=True` first and wrap the result once in the no-recursion
adapter — this is the first test in the function body, so the wrapping is
outermost and happens exactly once. -/
def matcherFromSpec (spec : MatchSpec) (ps recursive : Bool) : Except GlobErr MatcherV :=
  if recursive then matcherFromSpecRec spec ps
  else
    match matcherFromSpecRec spec ps with
    | .error e => .error e
    | .ok m => .ok (.noRec m)

/-- C5: `matcher_from_spec` maps absence to the match-everything matcher, a
bare pattern string to a `GlobMatcher` (construction errors propagating), a
bare compiled regex to a `ReMatcher`, a matcher instance to itself
unchanged, and a collection to a `MetaMatcher` over the normalized form of
each element; and with `recursive=False` the result is the `recursive=True`
normal form wrapped in the no-recursion adapter exactly once, outermost,
regardless of nesting in the input collection (the inner normalization runs
entirely with `recursive=True`). -/
theorem c5_matcher_from_spec_normalization (ps : Bool) :
    (matcherFromSpec .noneSpec ps true = .ok .dummy) ∧
    (∀ s : String, matcherFromSpec (.strPat s) ps true =
      (match globInit s ps with
       | .error e => .error e
       | .ok st => .ok (.glob st))) ∧
    (∀ r : Regex, matcherFromSpec (.rePat r) ps true = .ok (.remat r)) ∧
    (∀ m : MatcherV, matcherFromSpec (.matcher m) ps true = .ok m) ∧
    (∀ l : List MatchSpec, matcherFromSpec (.coll l) ps true =
      (match mapSpecs l ps with
       | .error e => .error e
       | .ok ms => .ok (.meta ms))) ∧
    (∀ spec : MatchSpec, matcherFromSpec spec ps false =
      (match matcherFromSpec spec ps true with
       | .error e => .error e
       | .ok m => .ok (.noRec m))) :=
  ⟨rfl, fun _ => rfl, fun _ => rfl, fun _ => rfl, fun _ => rfl, fun _ => rfl⟩

/-- C10: a string specification is iterable in Python, yet
`matcher_from_spec` tests `isinstance(spec, (str, bytes))` before the
`Iterable` branch, so a string spec is always compiled as one single glob
pattern over the whole string: the result is the `GlobMatcher` of the whole
string (or its construction error) and never a `MetaMatcher` (as the
collection branch would produce over the string's characters). -/
theorem c10_string_spec_single_glob (s : String) (ps recursive : Bool) :
    (isIterableSpec (.strPat s) = true) ∧
    (matcherFromSpec (.strPat s) ps true =
      (match globInit s ps with
       | .error e => .error e
       | .ok st => .ok (.glob st))) ∧
    (∀ st, globInit s ps = .ok st →
      matcherFromSpec (.strPat s) ps true = .ok (.glob st)) ∧
    (∀ ms : List MatcherV, matcherFromSpec (.strPat s) ps recursive ≠ .ok (.meta ms)) := by
  refine ⟨rfl, rfl, ?_, ?_⟩
  · intro st hst
    have h2 : matcherFromSpec (.strPat s) ps true =
        (match globInit s ps with
         | .error e => (Except.error e : Except GlobErr MatcherV)
         | .ok st2 => .ok (.glob st2)) := rfl
    rw [h2, hst]
  · intro ms
    cases hrec : recursive <;> cases hst : globInit s ps <;>
      simp [matcherFromSpec, matcherFromSpecRec, hst]

/-- A pure model of the directory tree that the OS walk (`os.walk`, top-down)
enumerates: the named subdirectories (in listing order) and the file names
of one directory. -/
inductive FSDir where
  | mk (subdirs : List (String × FSDir)) (files : List String)

/-- `FSNodeType`. -/
inductive FSNodeType where
  | FILE
  | DIRECTORY
deriving DecidableEq

/-- `FSNodeEntry`.  Relative paths are represented by their label lists (the
`parts` the source computes by splitting the relative directory path on the
separator); the empty list stands for the root relative path (`""` inside
the walk, reported as `"."`).  `path` is the root path labels followed by
the relative labels (`prefix + relpath` in the source).  `parentfd` is
always `none` in the modelled path-based walk (`os.walk` yields no directory
file descriptors). -/
structure FSNodeEntry where
  type : FSNodeType
  path : List String
  relpath : List String
  name : String
  parentfd : Option Nat
deriving DecidableEq

/-- `walk._join_dirs_and_files`: subdirectory names first (paired with
`True`), then file names (paired with `False`). -/
def joinDirsAndFiles (dirnames filenames : List String) : List (String × Bool) :=
  dirnames.map (fun d => (d, true)) ++ filenames.map (fun f => (f, false))

/-- The relative path string handed to the matcher
(`os.path.join(dirpath, filename)` chains); for relative separator-free
labels this is the separator-intercalation of the label list. -/
def joinPath (labels : List String) : String :=
  String.intercalate "/" labels

/-- The ascending chain of nonempty label-list ancestors of `d`
(`sep.join(parts[0:end_offset + 1])` for `end_offset in range(len(parts))`).
For the root event the Python loop runs once with the empty relative path,
which is already in the reported set; with the empty list representing the
root relative path this is the empty chain, with identical behaviour. -/
def ancestorsAsc (d : List String) : List (List String) :=
  (List.range d.length).map (fun k => d.take (k + 1))

/-- The intermediate-directory synthesis loop of `walk._walk`: walk the
ancestor chain root-to-leaf, emitting one `DIRECTORY` entry for each
ancestor not yet in the reported set and adding it to the set. -/
def emitInters (root : List String) :
    List (List String) → List (List String) → List FSNodeEntry × List (List String)
  | S, [] => ([], S)
  | S, p :: ps =>
    if p ∈ S then emitInters root S ps
    else
      let r := emitInters root (p :: S) ps
      ((⟨.DIRECTORY, root ++ p, p, p.getLastD "", none⟩ : FSNodeEntry) :: r.1, r.2)

/-- The per-directory child loop of `walk._walk` for the event at relative
directory `d`: for each child (subdirectories first, then files), consult
`should_descend` for subdirectories (collecting the kept names — the others
are removed from the walk's `dirnames` and hence pruned), then
`should_report`; for a reported child, first synthesize the missing
intermediate directories (checked at most once per event via the
`intermediates_reported` flag), then emit the entry itself, adding reported
directories to the set.  A matcher exception aborts the walk: the final
Boolean is `false` and no further entries are produced. -/
def procChildren (m : MatcherV) (inter : Bool) (root d : List String) :
    List (String × Bool) → List (List String) → Bool →
    List FSNodeEntry × List (List String) × List String × Bool
  | [], S, _ => ([], S, [], true)
  | (name, isDir) :: rest, S, interRep =>
    let fp := d ++ [name]
    match (if isDir then mDescend m (joinPath fp) else .ok false) with
    | .error _ => ([], S, [], false)
    | .ok keep =>
      match mReport m (joinPath fp) isDir with
      | .error _ => ([], S, [], false)
      | .ok rep =>
        let keptHere := if isDir && keep then [name] else []
        if rep = false then
          let r := procChildren m inter root d rest S interRep
          (r.1, r.2.1, keptHere ++ r.2.2.1, r.2.2.2)
        else
          let ie := if !interRep && inter then emitInters root S (ancestorsAsc d) else ([], S)
          let interRep2 := if !interRep && inter then true else interRep
          let te : FSNodeEntry :=
            if isDir then ⟨.DIRECTORY, root ++ fp, fp, name, none⟩
            else ⟨.FILE, root ++ fp, fp, name, none⟩
          let S2 := if isDir then fp :: ie.2 else ie.2
          let r := procChildren m inter root d rest S2 interRep2
          (ie.1 ++ te :: r.1, r.2.1, keptHere ++ r.2.2.1, r.2.2.2)

mutual

/-- The walk events for the subtree rooted at the relative directory `d`
with listing `t` (top-down: the event for `d` itself first, then the events
of the kept subdirectories in listing order). -/
def processDir (m : MatcherV) (inter : Bool) (root d : List String) (t : FSDir)
    (S : List (List String)) : List FSNodeEntry × List (List String) × Bool :=
  match t with
  | .mk subs files =>
    let c := procChildren m inter root d (joinDirsAndFiles (subs.map Prod.fst) files) S false
    if c.2.2.2 then
      let r := procSubdirs m inter root d subs c.2.2.1 c.2.1
      (c.1 ++ r.1, r.2.1, r.2.2)
    else (c.1, c.2.1, false)

/-- Recursion of the walk into the subdirectories that survived pruning
(those whose names are in `kept`), in listing order, stopping at the first
aborted subtree. -/
def procSubdirs (m : MatcherV) (inter : Bool) (root d : List String) :
    List (String × FSDir) → List String → List (List String) →
    List FSNodeEntry × List (List String) × Bool
  | [], _, S => ([], S, true)
  | (name, sub) :: rest, kept, S =>
    if name ∈ kept then
      let r := processDir m inter root (d ++ [name]) sub S
      if r.2.2 then
        let r2 := procSubdirs m inter root d rest kept r.2.1
        (r.1 ++ r2.1, r2.2.1, r2.2.2)
      else (r.1, r.2.1, false)
    else procSubdirs m inter root d rest kept S

end

/-- `walk._walk` for a path-based walk rooted at the directory with label
list `root`: the synthetic root entry comes first (relative path `"."`,
modelled by `[]`, with a null parent handle), before any matcher
consultation; the reported-directories set starts seeded with the root
relative path.  The Boolean is `false` when a matcher call raised, in which
case the entry list is the prefix produced before the exception. -/
def walkModel (root : List String) (t : FSDir) (m : MatcherV) (inter : Bool) :
    List FSNodeEntry × Bool :=
  let r := processDir m inter root [] t [[]]
  ((⟨.DIRECTORY, root, [], ".", none⟩ : FSNodeEntry) :: r.1, r.2.2)

/-- Pairwise distinctness of a name list (a Boolean `Nodup`). -/
def nodupNames : List String → Bool
  | [] => true
  | n :: ns => !ns.contains n && nodupNames ns

mutual

/-- Validity of the modelled directory tree: within every directory the
subdirectory names are pairwise distinct, as in a real file system (`os.walk`
never lists the same name twice in one directory). -/
def validB : FSDir → Bool
  | .mk subs _ => nodupNames (subs.map Prod.fst) && validSubs subs

def validSubs : List (String × FSDir) → Bool
  | [] => true
  | (_, sub) :: rest => validB sub && validSubs rest

end

/-- C8: the first entry yielded by every traversal — for every root, tree,
matcher and option choice — is the synthetic root `DIRECTORY` entry with
relative path `"."` (the empty label list) and a null parent handle.  It is
produced before the matcher is consulted for any path: it is present even
for a matcher whose every decision raises (in which case it is the only
entry). -/
theorem c8_root_entry_first (root : List String) (t : FSDir) (m : MatcherV) (inter : Bool) :
    (walkModel root t m inter).1 =
      (⟨.DIRECTORY, root, [], ".", none⟩ : FSNodeEntry) :: (processDir m inter root [] t [[]]).1 :=
  rfl

/-- Strict ancestor relation on label lists: `q` extends `p` by at least one
label, i.e. `p` is a proper ancestor directory path of `q`. -/
def SPre (p q : List String) : Prop := ∃ r, r ≠ [] ∧ q = p ++ r

/-- Prefix comparability with `c`: `p` is a (possibly equal) ancestor of `c`
or an extension of `c`. -/
def PreComp (c p : List String) : Prop := (∃ r, p ++ r = c) ∨ (∃ r, p = c ++ r)

/-- The relative paths of the `DIRECTORY` entries of an entry stream. -/
def dirRels (es : List FSNodeEntry) : List (List String) :=
  (es.filter (fun e => e.type == FSNodeType.DIRECTORY)).map FSNodeEntry.relpath

theorem SPre_length {p q : List String} (h : SPre p q) : p.length < q.length := by
  obtain ⟨r, hr, rfl⟩ := h
  have hr1 : 1 ≤ r.length := List.length_pos.mpr hr
  rw [List.length_append]
  omega

theorem SPre_of_SPre_append {d p : List String} (n : String)
    (h : SPre (d ++ [n]) p) : SPre d p := by
  obtain ⟨r, hr, rfl⟩ := h
  exact ⟨[n] ++ r, by simp, by simp⟩

theorem not_SPre_nil_right (p : List String) : ¬SPre p [] := by
  rintro ⟨r, hr, heq⟩
  exact hr (List.append_eq_nil.mp heq.symm).2

theorem mem_ancestorsAsc {d p : List String} :
    p ∈ ancestorsAsc d ↔ ∃ k, k < d.length ∧ p = d.take (k + 1) := by
  simp [ancestorsAsc, List.mem_map, List.mem_range, eq_comm]

theorem length_mem_ancestorsAsc {d p : List String} (h : p ∈ ancestorsAsc d) :
    0 < p.length ∧ p.length ≤ d.length := by
  obtain ⟨k, hk, rfl⟩ := mem_ancestorsAsc.mp h
  rw [List.length_take]
  omega

theorem ancestorsAsc_sorted (d : List String) :
    (ancestorsAsc d).Pairwise (fun a b => a.length < b.length) := by
  unfold ancestorsAsc
  rw [List.pairwise_map]
  have hp : (List.range d.length).Pairwise (· < ·) := List.pairwise_lt_range d.length
  refine hp.imp_of_mem ?_
  intro a b ha hb hab
  rw [List.mem_range] at ha hb
  rw [List.length_take, List.length_take]
  omega

theorem SPre_take {q w : List String} (h : SPre q w) : q = w.take q.length := by
  obtain ⟨r, hr, rfl⟩ := h
  rw [List.take_left]

theorem mem_ancestorsAsc_of_SPre {d p q : List String} (hp : p ∈ ancestorsAsc d)
    (hq : SPre q p) (hne : q ≠ []) : q ∈ ancestorsAsc d := by
  obtain ⟨k, hk, rfl⟩ := mem_ancestorsAsc.mp hp
  have hlen := SPre_length hq
  rw [List.length_take] at hlen
  have hlen2 : q.length < k + 1 := by omega
  have hqt := SPre_take hq
  rw [List.take_take] at hqt
  have hmin : min q.length (k + 1) = q.length := by omega
  rw [hmin] at hqt
  have hq1 : 1 ≤ q.length := List.length_pos.mpr hne
  refine mem_ancestorsAsc.mpr ⟨q.length - 1, by omega, ?_⟩
  rw [show q.length - 1 + 1 = q.length by omega]
  exact hqt

/-- Any nonempty strict ancestor of a direct child `d ++ [name]` of `d` is
in the ancestor chain of `d` (it is `d.take j` for some `1 ≤ j ≤ d.length`,
including `d` itself). -/
theorem mem_ancestorsAsc_of_SPre_child {d q : List String} (name : String)
    (hq : SPre q (d ++ [name])) (hne : q ≠ []) : q ∈ ancestorsAsc d := by
  have hlen := SPre_length hq
  rw [List.length_append, List.length_singleton] at hlen
  have hqt := SPre_take hq
  have hql : q.length ≤ d.length := by omega
  have htake : (d ++ [name]).take q.length = d.take q.length :=
    List.take_append_of_le_length hql
  have hq1 : 1 ≤ q.length := List.length_pos.mpr hne
  refine mem_ancestorsAsc.mpr ⟨q.length - 1, by omega, ?_⟩
  rw [show q.length - 1 + 1 = q.length by omega]
  rw [htake] at hqt
  exact hqt

theorem self_mem_ancestorsAsc {d : List String} (hd : d ≠ []) : d ∈ ancestorsAsc d := by
  have h1 : 1 ≤ d.length := List.length_pos.mpr hd
  refine mem_ancestorsAsc.mpr ⟨d.length - 1, by omega, ?_⟩
  rw [show d.length - 1 + 1 = d.length by omega, List.take_length]

/-- Specification of the intermediate-directory synthesis loop: the updated
set is the input set extended by exactly the relative paths of the emitted
entries; every emitted entry is a fresh `DIRECTORY` entry for a chain
element; emitted relative paths are pairwise distinct; afterwards the whole
chain is in the set; and every emitted entry's nonempty strict ancestors are
in the input set or emitted earlier. -/
theorem emitInters_spec (root : List String) :
    ∀ (plist S : List (List String)),
      plist.Pairwise (fun a b => a.length < b.length) →
      (∀ p ∈ plist, ∀ q, SPre q p → q ≠ [] → q ∈ S ∨ q ∈ plist) →
      (∀ x, x ∈ (emitInters root S plist).2 ↔
        x ∈ S ∨ ∃ e ∈ (emitInters root S plist).1, e.relpath = x) ∧
      (∀ e ∈ (emitInters root S plist).1,
        e.type = FSNodeType.DIRECTORY ∧ e.relpath ∈ plist ∧ e.relpath ∉ S) ∧
      ((emitInters root S plist).1.map FSNodeEntry.relpath).Nodup ∧
      (∀ p ∈ plist, p ∈ (emitInters root S plist).2) ∧
      (∀ pre e post, (emitInters root S plist).1 = pre ++ e :: post →
        ∀ q, SPre q e.relpath → q ≠ [] →
          q ∈ S ∨ ∃ e2 ∈ pre, e2.type = FSNodeType.DIRECTORY ∧ e2.relpath = q) := by
  intro plist
  induction plist with
  | nil =>
    intro S hsort hclosed
    refine ⟨?_, ?_, ?_, ?_, ?_⟩
    · intro x; simp [emitInters]
    · intro e he; simp [emitInters] at he
    · simp [emitInters]
    · intro p hp; simp at hp
    · intro pre e post hsplit
      rw [show (emitInters root S ([] : List (List String))).1 = [] from rfl] at hsplit
      cases pre <;> simp at hsplit
  | cons p ps ih =>
    intro S hsort hclosed
    by_cases hmem : p ∈ S
    · have hstep : emitInters root S (p :: ps) = emitInters root S ps := by
        simp [emitInters, hmem]
      have hclosed2 : ∀ p2 ∈ ps, ∀ q, SPre q p2 → q ≠ [] → q ∈ S ∨ q ∈ ps := by
        intro p2 hp2 q hq hne
        rcases hclosed p2 (List.mem_cons_of_mem p hp2) q hq hne with h | h
        · exact Or.inl h
        · rcases List.mem_cons.mp h with rfl | h2
          · exact Or.inl hmem
          · exact Or.inr h2
      obtain ⟨i1, i2, i3, i4, i5⟩ := ih S (List.Pairwise.of_cons hsort) hclosed2
      rw [hstep]
      refine ⟨i1, ?_, i3, ?_, i5⟩
      · intro e he
        obtain ⟨ht, hr, hs⟩ := i2 e he
        exact ⟨ht, List.mem_cons_of_mem p hr, hs⟩
      · intro q hq
        rcases List.mem_cons.mp hq with rfl | h2
        · exact (i1 q).mpr (Or.inl hmem)
        · exact i4 q h2
    · have hstep : emitInters root S (p :: ps) =
          ((⟨.DIRECTORY, root ++ p, p, p.getLastD "", none⟩ : FSNodeEntry) ::
            (emitInters root (p :: S) ps).1, (emitInters root (p :: S) ps).2) := by
        simp [emitInters, hmem]
      have hclosed2 : ∀ p2 ∈ ps, ∀ q, SPre q p2 → q ≠ [] → q ∈ p :: S ∨ q ∈ ps := by
        intro p2 hp2 q hq hne
        rcases hclosed p2 (List.mem_cons_of_mem p hp2) q hq hne with h | h
        · exact Or.inl (List.mem_cons_of_mem p h)
        · rcases List.mem_cons.mp h with rfl | h2
          · exact Or.inl (List.mem_cons_self q S)
          · exact Or.inr h2
      obtain ⟨i1, i2, i3, i4, i5⟩ := ih (p :: S) (List.Pairwise.of_cons hsort) hclosed2
      rw [hstep]
      refine ⟨?_, ?_, ?_, ?_, ?_⟩
      · intro x
        simp only
        rw [i1 x]
        constructor
        · rintro (hx | ⟨e, he, hrel⟩)
          · rcases List.mem_cons.mp hx with rfl | hx2
            · exact Or.inr ⟨_, List.mem_cons_self _ _, rfl⟩
            · exact Or.inl hx2
          · exact Or.inr ⟨e, List.mem_cons_of_mem _ he, hrel⟩
        · rintro (hx | ⟨e, he, hrel⟩)
          · exact Or.inl (List.mem_cons_of_mem p hx)
          · rcases List.mem_cons.mp he with rfl | he2
            · exact Or.inl (by rw [← hrel]; exact List.mem_cons_self p S)
            · exact Or.inr ⟨e, he2, hrel⟩
      · intro e he
        simp only at he
        rcases List.mem_cons.mp he with rfl | he2
        · exact ⟨rfl, List.mem_cons_self p ps, hmem⟩
        · obtain ⟨ht, hr, hs⟩ := i2 e he2
          refine ⟨ht, List.mem_cons_of_mem p hr, fun hc => hs (List.mem_cons_of_mem p hc)⟩
      · simp only [List.map_cons]
        rw [List.nodup_cons]
        refine ⟨?_, i3⟩
        intro hc
        rw [List.mem_map] at hc
        obtain ⟨e, he, hrel⟩ := hc
        obtain ⟨-, -, hs⟩ := i2 e he
        exact hs (hrel ▸ List.mem_cons_self p S)
      · intro q hq
        rcases List.mem_cons.mp hq with rfl | h2
        · exact (i1 q).mpr (Or.inl (List.mem_cons_self q S))
        · exact i4 q h2
      · intro pre e post hsplit q hq hne
        simp only at hsplit
        cases pre with
        | nil =>
          simp only [List.nil_append] at hsplit
          have he : e = ⟨.DIRECTORY, root ++ p, p, p.getLastD "", none⟩ :=
            (List.cons.injEq _ _ _ _ ▸ hsplit).1.symm
          rw [he] at hq
          simp only at hq
          rcases hclosed p (List.mem_cons_self p ps) q hq hne with h | h
          · exact Or.inl h
          · rcases List.mem_cons.mp h with rfl | h2
            · exact absurd (SPre_length hq) (by omega)
            · exfalso
              have hlt := (List.pairwise_cons.mp hsort).1 q h2
              have := SPre_length hq
              omega
        | cons e0 pre2 =>
          simp only [List.cons_append, List.cons.injEq] at hsplit
          obtain ⟨rfl, hsplit2⟩ := hsplit
          rcases i5 pre2 e post hsplit2 q hq hne with h | ⟨e2, he2, ht2, hr2⟩
          · rcases List.mem_cons.mp h with rfl | h2
            · exact Or.inr ⟨_, List.mem_cons_self _ _, rfl, rfl⟩
            · exact Or.inl h2
          · exact Or.inr ⟨e2, List.mem_cons_of_mem _ he2, ht2, hr2⟩

theorem mem_dirRels {es : List FSNodeEntry} {x : List String} :
    x ∈ dirRels es ↔ ∃ e ∈ es, e.type = FSNodeType.DIRECTORY ∧ e.relpath = x := by
  constructor
  · intro h
    rw [dirRels, List.mem_map] at h
    obtain ⟨e, he, hrel⟩ := h
    rw [List.mem_filter] at he
    exact ⟨e, he.1, by simpa using he.2, hrel⟩
  · rintro ⟨e, he, ht, rfl⟩
    rw [dirRels, List.mem_map]
    exact ⟨e, List.mem_filter.mpr ⟨he, by simp [ht]⟩, rfl⟩

theorem dirRels_append (a b : List FSNodeEntry) :
    dirRels (a ++ b) = dirRels a ++ dirRels b := by
  simp [dirRels, List.filter_append]

theorem dirRels_cons_dir {e : FSNodeEntry} (es : List FSNodeEntry)
    (h : e.type = FSNodeType.DIRECTORY) :
    dirRels (e :: es) = e.relpath :: dirRels es := by
  simp [dirRels, List.filter_cons, h]

theorem dirRels_cons_file {e : FSNodeEntry} (es : List FSNodeEntry)
    (h : e.type = FSNodeType.FILE) : dirRels (e :: es) = dirRels es := by
  simp [dirRels, List.filter_cons, h]

theorem dirRels_all_dir {es : List FSNodeEntry}
    (h : ∀ e ∈ es, e.type = FSNodeType.DIRECTORY) :
    dirRels es = es.map FSNodeEntry.relpath := by
  induction es with
  | nil => rfl
  | cons e es ih =>
    rw [dirRels_cons_dir es (h e (List.mem_cons_self e es)), List.map_cons,
      ih (fun e2 he2 => h e2 (List.mem_cons_of_mem e he2))]

theorem exists_append_of_mem_ancestorsAsc {d p : List String} (h : p ∈ ancestorsAsc d) :
    ∃ r, p ++ r = d := by
  obtain ⟨k, hk, rfl⟩ := mem_ancestorsAsc.mp h
  exact ⟨d.drop (k + 1), List.take_append_drop (k + 1) d⟩

theorem ne_child_of_mem_ancestorsAsc {d p : List String} (name : String)
    (h : p ∈ ancestorsAsc d) : p ≠ d ++ [name] := by
  intro hc
  have h1 := (length_mem_ancestorsAsc h).2
  rw [hc, List.length_append, List.length_singleton] at h1
  omega

/-- Ancestors-before-entry, relative to a set `S` of already-reported
directory paths: every nonempty strict ancestor of an entry of the stream is
in `S` or is the relative path of a `DIRECTORY` entry appearing earlier. -/
def AncOK (S : List (List String)) (es : List FSNodeEntry) : Prop :=
  ∀ pre e post, es = pre ++ e :: post → ∀ q, SPre q e.relpath → q ≠ [] →
    q ∈ S ∨ ∃ e2 ∈ pre, e2.type = FSNodeType.DIRECTORY ∧ e2.relpath = q

theorem AncOK_nil (S : List (List String)) : AncOK S [] := by
  intro pre e post hsplit
  cases pre <;> simp at hsplit

/-- Sequential composition: if the second stream is ancestors-sound with
respect to a set `S1` whose members are either in `S` or reported as
directories by the first stream, the concatenation is ancestors-sound for
`S`. -/
theorem AncOK_append (S S1 : List (List String)) {a b : List FSNodeEntry}
    (ha : AncOK S a) (hb : AncOK S1 b)
    (hS1 : ∀ x, x ∈ S1 → x ∈ S ∨ ∃ e ∈ a, e.type = FSNodeType.DIRECTORY ∧ e.relpath = x) :
    AncOK S (a ++ b) := by
  intro pre e post hsplit q hq hne
  rcases List.append_eq_append_iff.mp hsplit with ⟨a2, hpre, hb2⟩ | ⟨c2, ha2, hc2⟩
  · -- `e` lies in `b`: `pre = a ++ a2` and `b = a2 ++ e :: post`
    rcases hb a2 e post hb2 q hq hne with h | ⟨e2, he2, ht2, hr2⟩
    · rcases hS1 q h with h2 | ⟨e2, he2, ht2, hr2⟩
      · exact Or.inl h2
      · refine Or.inr ⟨e2, ?_, ht2, hr2⟩
        rw [hpre]
        exact List.mem_append.mpr (Or.inl he2)
    · refine Or.inr ⟨e2, ?_, ht2, hr2⟩
      rw [hpre]
      exact List.mem_append.mpr (Or.inr he2)
  · -- the split point is inside `a` (or exactly at the border)
    cases c2 with
    | nil =>
      rw [List.append_nil] at ha2
      simp only [List.nil_append] at hc2
      rcases hb [] e post (by rw [List.nil_append]; exact hc2.symm) q hq hne with
        h | ⟨e2, he2, -, -⟩
      · rcases hS1 q h with h2 | ⟨e2, he2, ht2, hr2⟩
        · exact Or.inl h2
        · exact Or.inr ⟨e2, ha2 ▸ he2, ht2, hr2⟩
      · simp at he2
    | cons x c3 =>
      -- `a = pre ++ x :: c3` and `e :: post = x :: (c3 ++ b)`, so `e = x` lies in `a`
      rw [List.cons_append] at hc2
      injection hc2 with hx hpost
      rcases ha pre e c3 (by rw [ha2, hx]) q hq hne with h | h
      · exact Or.inl h
      · exact Or.inr h

/-- The facts about an intermediate-synthesis result that the child loop
needs; for the branch where the synthesis is skipped
(`intermediates_reported` already set) they hold of `([], S)` because the
ancestor chain is then already contained in `S`. -/
def InterBundle (d : List String) (S : List (List String))
    (ie : List FSNodeEntry × List (List String)) : Prop :=
  (∀ x, x ∈ ie.2 ↔ x ∈ S ∨ ∃ e ∈ ie.1, e.relpath = x) ∧
  (∀ e ∈ ie.1, e.type = FSNodeType.DIRECTORY ∧ e.relpath ∈ ancestorsAsc d ∧ e.relpath ∉ S) ∧
  (ie.1.map FSNodeEntry.relpath).Nodup ∧
  (∀ p ∈ ancestorsAsc d, p ∈ ie.2) ∧
  AncOK S ie.1

theorem interBundle_emit (root d : List String) (S : List (List String)) :
    InterBundle d S (emitInters root S (ancestorsAsc d)) := by
  have hclosed : ∀ p ∈ ancestorsAsc d, ∀ q, SPre q p → q ≠ [] →
      q ∈ S ∨ q ∈ ancestorsAsc d :=
    fun p hp q hq hne => Or.inr (mem_ancestorsAsc_of_SPre hp hq hne)
  exact emitInters_spec root (ancestorsAsc d) S (ancestorsAsc_sorted d) hclosed

theorem interBundle_skip (d : List String) (S : List (List String))
    (hchain : ∀ p ∈ ancestorsAsc d, p ∈ S) :
    InterBundle d S (([], S) : List FSNodeEntry × List (List String)) := by
  refine ⟨fun x => by simp, fun e he => by simp at he, by simp, hchain, ?_⟩
  intro pre e post hsplit
  cases pre <;> simp at hsplit

/-- The conclusions of the child-loop invariant for a result 4-tuple
(entries, updated set, kept names, no-abort flag) relative to the set `S` at
the start of the loop and the list `cs` of children still to process. -/
def ChildConc (d : List String) (cs : List (String × Bool)) (S : List (List String))
    (res : List FSNodeEntry × List (List String) × List String × Bool) : Prop :=
  (∀ x, x ∈ res.2.1 ↔ x ∈ S ∨ x ∈ dirRels res.1) ∧
  (dirRels res.1).Nodup ∧
  (∀ p ∈ dirRels res.1, p ∉ S) ∧
  (∀ p ∈ dirRels res.1, (∃ r, p ++ r = d) ∨ ∃ name, (name, true) ∈ cs ∧ p = d ++ [name]) ∧
  AncOK S res.1 ∧
  (∀ n ∈ res.2.2.1, (n, true) ∈ cs)

theorem childConc_abort (d : List String) (cs : List (String × Bool))
    (S : List (List String)) (ok : Bool) :
    ChildConc d cs S ([], S, [], ok) := by
  refine ⟨fun x => by simp [dirRels], by simp [dirRels], ?_, ?_, AncOK_nil S, ?_⟩
  · intro p hp; simp [dirRels] at hp
  · intro p hp; simp [dirRels] at hp
  · intro n hn; simp at hn

/-- The heart of the child loop: handling one reported child — the
synthesized intermediate entries, then the child's own entry — on top of a
result for the remaining children preserves all invariants. -/
theorem reportStep_spec (d : List String) (name : String) (isDir : Bool)
    (rest : List (String × Bool)) (S : List (List String))
    (ie : List FSNodeEntry × List (List String)) (te : FSNodeEntry)
    (S2 : List (List String))
    (res : List FSNodeEntry × List (List String) × List String × Bool)
    (kh : List String)
    (hB : InterBundle d S ie)
    (hte_rel : te.relpath = d ++ [name])
    (hS2 : ∀ x, x ∈ S2 ↔ (te.type = FSNodeType.DIRECTORY ∧ x = d ++ [name]) ∨ x ∈ ie.2)
    (hlink : te.type = FSNodeType.DIRECTORY → isDir = true)
    (hkh : ∀ n ∈ kh, n = name ∧ isDir = true)
    (hfresh_fp : te.type = FSNodeType.DIRECTORY → d ++ [name] ∉ S)
    (hQ : ChildConc d rest S2 res) :
    ChildConc d ((name, isDir) :: rest) S
      (ie.1 ++ te :: res.1, res.2.1, kh ++ res.2.2.1, res.2.2.2) := by
  obtain ⟨hE1, hE2, hE3, hE4, hE5⟩ := hB
  obtain ⟨hQ1, hQ2, hQ3, hQ4, hQ5, hQ6⟩ := hQ
  have hfp_notin_ie : d ++ [name] ∉ ie.1.map FSNodeEntry.relpath := by
    intro hc
    rw [List.mem_map] at hc
    obtain ⟨e, he, hrel⟩ := hc
    exact ne_child_of_mem_ancestorsAsc name (hE2 e he).2.1 hrel
  have hdir_ie : dirRels ie.1 = ie.1.map FSNodeEntry.relpath :=
    dirRels_all_dir (fun e he => (hE2 e he).1)
  have hS2sub : ∀ x, x ∈ S → x ∈ S2 :=
    fun x hx => (hS2 x).mpr (Or.inr ((hE1 x).mpr (Or.inl hx)))
  have hdr : dirRels (ie.1 ++ te :: res.1) =
      dirRels ie.1 ++ dirRels (te :: res.1) := dirRels_append _ _
  have hanc : AncOK S (ie.1 ++ te :: res.1) := by
    refine AncOK_append S ie.2 hE5 ?_ ?_
    · -- `te :: res.1` is ancestors-sound relative to `ie.2`
      intro pre e post hsplit q hq hne
      cases pre with
      | nil =>
        simp only [List.nil_append, List.cons.injEq] at hsplit
        obtain ⟨rfl, -⟩ := hsplit
        rw [hte_rel] at hq
        exact Or.inl (hE4 q (mem_ancestorsAsc_of_SPre_child name hq hne))
      | cons x pre2 =>
        simp only [List.cons_append, List.cons.injEq] at hsplit
        obtain ⟨rfl, hsplit2⟩ := hsplit
        rcases hQ5 pre2 e post hsplit2 q hq hne with h | ⟨e2, he2, ht2, hr2⟩
        · rcases (hS2 q).mp h with ⟨htd, rfl⟩ | h2
          · exact Or.inr ⟨te, List.mem_cons_self _ _, htd, hte_rel⟩
          · exact Or.inl h2
        · exact Or.inr ⟨e2, List.mem_cons_of_mem _ he2, ht2, hr2⟩
    · intro x hx
      rcases (hE1 x).mp hx with h | ⟨e, he, hrel⟩
      · exact Or.inl h
      · exact Or.inr ⟨e, he, (hE2 e he).1, hrel⟩
  have hmemie : ∀ x, x ∈ dirRels ie.1 ↔ ∃ e ∈ ie.1, e.relpath = x := by
    intro x
    rw [hdir_ie, List.mem_map]
  cases htt : te.type with
  | DIRECTORY =>
    have hdr2 : dirRels (te :: res.1) = (d ++ [name]) :: dirRels res.1 := by
      rw [dirRels_cons_dir res.1 htt, hte_rel]
    refine ⟨?_, ?_, ?_, ?_, hanc, ?_⟩
    · intro x
      rw [hQ1 x, hS2 x, hdr, hdr2]
      constructor
      · rintro ((⟨-, rfl⟩ | hx) | hx)
        · exact Or.inr (by rw [List.mem_append]; right; exact List.mem_cons_self _ _)
        · rcases (hE1 x).mp hx with hx2 | ⟨e, he, hrel⟩
          · exact Or.inl hx2
          · refine Or.inr ?_
            rw [List.mem_append]
            exact Or.inl ((hmemie x).mpr ⟨e, he, hrel⟩)
        · exact Or.inr (by rw [List.mem_append]; right; exact List.mem_cons_of_mem _ hx)
      · rintro (hx | hx)
        · exact Or.inl (Or.inr ((hE1 x).mpr (Or.inl hx)))
        · rw [List.mem_append] at hx
          rcases hx with hx | hx
          · exact Or.inl (Or.inr ((hE1 x).mpr (Or.inr ((hmemie x).mp hx))))
          · rcases List.mem_cons.mp hx with rfl | hx2
            · exact Or.inl (Or.inl ⟨htt, rfl⟩)
            · exact Or.inr hx2
    · rw [hdr, hdr2]
      rw [List.nodup_append]
      refine ⟨hdir_ie ▸ hE3, List.nodup_cons.mpr ⟨?_, hQ2⟩, ?_⟩
      · intro hc
        exact hQ3 _ hc ((hS2 _).mpr (Or.inl ⟨htt, rfl⟩))
      · intro a ha hb
        rcases List.mem_cons.mp hb with rfl | hb2
        · rw [hdir_ie] at ha
          exact hfp_notin_ie ha
        · exact hQ3 _ hb2 ((hS2 a).mpr (Or.inr ((hE1 a).mpr (Or.inr ((hmemie a).mp ha)))))
    · intro p hp
      rw [hdr, hdr2, List.mem_append] at hp
      rcases hp with hp | hp
      · obtain ⟨e, he, hrel⟩ := (hmemie p).mp hp
        exact hrel ▸ (hE2 e he).2.2
      · rcases List.mem_cons.mp hp with rfl | hp2
        · exact hfresh_fp htt
        · intro hc
          exact hQ3 _ hp2 (hS2sub _ hc)
    · intro p hp
      rw [hdr, hdr2, List.mem_append] at hp
      rcases hp with hp | hp
      · obtain ⟨e, he, hrel⟩ := (hmemie p).mp hp
        exact Or.inl (hrel ▸ exists_append_of_mem_ancestorsAsc (hE2 e he).2.1)
      · rcases List.mem_cons.mp hp with rfl | hp2
        · refine Or.inr ⟨name, ?_, rfl⟩
          rw [hlink htt]
          exact List.mem_cons_self _ _
        · rcases hQ4 p hp2 with h | ⟨n2, hn2, hp2eq⟩
          · exact Or.inl h
          · exact Or.inr ⟨n2, List.mem_cons_of_mem _ hn2, hp2eq⟩
    · intro n hn
      rcases List.mem_append.mp hn with hn2 | hn2
      · obtain ⟨rfl, hd2⟩ := hkh n hn2
        rw [hd2]
        exact List.mem_cons_self _ _
      · exact List.mem_cons_of_mem _ (hQ6 n hn2)
  | FILE =>
    have hdr2 : dirRels (te :: res.1) = dirRels res.1 := dirRels_cons_file res.1 htt
    have hS2b : ∀ x, x ∈ S2 ↔ x ∈ ie.2 := by
      intro x
      rw [hS2 x]
      constructor
      · rintro (⟨hd2, -⟩ | h)
        · rw [htt] at hd2; cases hd2
        · exact h
      · exact fun h => Or.inr h
    refine ⟨?_, ?_, ?_, ?_, hanc, ?_⟩
    · intro x
      rw [hQ1 x, hS2b x, hE1 x, hdr, hdr2]
      constructor
      · rintro ((hx | ⟨e, he, hrel⟩) | hx)
        · exact Or.inl hx
        · exact Or.inr (by rw [List.mem_append]; exact Or.inl ((hmemie x).mpr ⟨e, he, hrel⟩))
        · exact Or.inr (by rw [List.mem_append]; exact Or.inr hx)
      · rintro (hx | hx)
        · exact Or.inl (Or.inl hx)
        · rw [List.mem_append] at hx
          rcases hx with hx | hx
          · exact Or.inl (Or.inr ((hmemie x).mp hx))
          · exact Or.inr hx
    · rw [hdr, hdr2]
      rw [List.nodup_append]
      refine ⟨hdir_ie ▸ hE3, hQ2, ?_⟩
      intro a ha hb
      exact hQ3 _ hb ((hS2b a).mpr ((hE1 a).mpr (Or.inr ((hmemie a).mp ha))))
    · intro p hp
      rw [hdr, hdr2, List.mem_append] at hp
      rcases hp with hp | hp
      · obtain ⟨e, he, hrel⟩ := (hmemie p).mp hp
        exact hrel ▸ (hE2 e he).2.2
      · intro hc
        exact hQ3 _ hp (hS2sub _ hc)
    · intro p hp
      rw [hdr, hdr2, List.mem_append] at hp
      rcases hp with hp | hp
      · obtain ⟨e, he, hrel⟩ := (hmemie p).mp hp
        exact Or.inl (hrel ▸ exists_append_of_mem_ancestorsAsc (hE2 e he).2.1)
      · rcases hQ4 p hp with h | ⟨n2, hn2, hp2eq⟩
        · exact Or.inl h
        · exact Or.inr ⟨n2, List.mem_cons_of_mem _ hn2, hp2eq⟩
    · intro n hn
      rcases List.mem_append.mp hn with hn2 | hn2
      · obtain ⟨rfl, hd2⟩ := hkh n hn2
        rw [hd2]
        exact List.mem_cons_self _ _
      · exact List.mem_cons_of_mem _ (hQ6 n hn2)

theorem filterDirs_cons (name : String) (isDir : Bool) (rest : List (String × Bool)) :
    ((((name, isDir) :: rest).filter fun c => c.2).map Prod.fst) =
      (if isDir then [name] else []) ++ ((rest.filter fun c => c.2).map Prod.fst) := by
  cases isDir <;> simp [List.filter_cons]

theorem procChildren_nil (m : MatcherV) (inter : Bool) (root d : List String)
    (S : List (List String)) (interRep : Bool) :
    procChildren m inter root d [] S interRep = ([], S, [], true) := rfl

theorem procChildren_cons (m : MatcherV) (inter : Bool) (root d : List String)
    (name : String) (isDir : Bool) (rest : List (String × Bool))
    (S : List (List String)) (interRep : Bool) :
    procChildren m inter root d ((name, isDir) :: rest) S interRep =
      match (if isDir then mDescend m (joinPath (d ++ [name])) else Except.ok false) with
      | .error _ => ([], S, [], false)
      | .ok keep =>
        match mReport m (joinPath (d ++ [name])) isDir with
        | .error _ => ([], S, [], false)
        | .ok rep =>
          if rep = false then
            ((procChildren m inter root d rest S interRep).1,
             (procChildren m inter root d rest S interRep).2.1,
             (if isDir && keep then [name] else []) ++
               (procChildren m inter root d rest S interRep).2.2.1,
             (procChildren m inter root d rest S interRep).2.2.2)
          else
            ((if !interRep && inter then emitInters root S (ancestorsAsc d) else ([], S)).1 ++
               (if isDir then
                  (⟨.DIRECTORY, root ++ (d ++ [name]), d ++ [name], name, none⟩ : FSNodeEntry)
                else ⟨.FILE, root ++ (d ++ [name]), d ++ [name], name, none⟩) ::
               (procChildren m inter root d rest
                 (if isDir then
                    (d ++ [name]) ::
                      (if !interRep && inter then emitInters root S (ancestorsAsc d)
                       else ([], S)).2
                  else (if !interRep && inter then emitInters root S (ancestorsAsc d)
                        else ([], S)).2)
                 (if !interRep && inter then true else interRep)).1,
             (procChildren m inter root d rest
               (if isDir then
                  (d ++ [name]) ::
                    (if !interRep && inter then emitInters root S (ancestorsAsc d)
                     else ([], S)).2
                else (if !interRep && inter then emitInters root S (ancestorsAsc d)
                      else ([], S)).2)
               (if !interRep && inter then true else interRep)).2.1,
             (if isDir && keep then [name] else []) ++
               (procChildren m inter root d rest
                 (if isDir then
                    (d ++ [name]) ::
                      (if !interRep && inter then emitInters root S (ancestorsAsc d)
                       else ([], S)).2
                  else (if !interRep && inter then emitInters root S (ancestorsAsc d)
                        else ([], S)).2)
                 (if !interRep && inter then true else interRep)).2.2.1,
             (procChildren m inter root d rest
               (if isDir then
                  (d ++ [name]) ::
                    (if !interRep && inter then emitInters root S (ancestorsAsc d)
                     else ([], S)).2
                else (if !interRep && inter then emitInters root S (ancestorsAsc d)
                      else ([], S)).2)
               (if !interRep && inter then true else interRep)).2.2.2) := rfl

/-- The full invariant of the child loop of one walk event (with
intermediate-directory reporting on): assuming no direct dir-child target is
already in the set, the dir-child names are distinct, and the ancestor chain
is in the set whenever the `intermediates_reported` flag is up, the loop
satisfies `ChildConc`. -/
theorem procChildren_spec (m : MatcherV) (root d : List String) :
    ∀ (cs : List (String × Bool)) (S : List (List String)) (interRep : Bool),
      (∀ name, (name, true) ∈ cs → d ++ [name] ∉ S) →
      ((cs.filter fun c => c.2).map Prod.fst).Nodup →
      (interRep = true → ∀ p ∈ ancestorsAsc d, p ∈ S) →
      ChildConc d cs S (procChildren m true root d cs S interRep) := by
  intro cs
  induction cs with
  | nil =>
    intro S interRep Hfresh Hnodup HIR
    rw [procChildren_nil]
    exact childConc_abort d [] S true
  | cons child rest ih =>
    obtain ⟨name, isDir⟩ := child
    intro S interRep Hfresh Hnodup HIR
    have Hfresh2 : ∀ n, (n, true) ∈ rest → d ++ [n] ∉ S :=
      fun n hn => Hfresh n (List.mem_cons_of_mem _ hn)
    have HnodupA : ((if isDir then [name] else []) ++
        ((rest.filter fun c => c.2).map Prod.fst)).Nodup := by
      rw [← filterDirs_cons]
      exact Hnodup
    have Hnodup2 : ((rest.filter fun c => c.2).map Prod.fst).Nodup := by
      cases isDir
      · simpa using HnodupA
      · exact (List.nodup_cons.mp (by simpa using HnodupA)).2
    cases hdesc : (if isDir then mDescend m (joinPath (d ++ [name])) else Except.ok false) with
    | error err =>
      rw [procChildren_cons, hdesc]
      dsimp only
      exact childConc_abort d _ S false
    | ok keep =>
      cases hrep : mReport m (joinPath (d ++ [name])) isDir with
      | error err =>
        rw [procChildren_cons, hdesc, hrep]
        dsimp only
        exact childConc_abort d _ S false
      | ok rep =>
        cases rep with
        | false =>
          rw [procChildren_cons, hdesc, hrep]
          dsimp only
          rw [if_pos (show (false : Bool) = false from rfl)]
          obtain ⟨q1, q2, q3, q4, q5, q6⟩ := ih S interRep Hfresh2 Hnodup2 HIR
          refine ⟨q1, q2, q3, ?_, q5, ?_⟩
          · intro p hp
            rcases q4 p hp with h | ⟨n2, hn2, heq⟩
            · exact Or.inl h
            · exact Or.inr ⟨n2, List.mem_cons_of_mem _ hn2, heq⟩
          · intro n hn
            rcases List.mem_append.mp hn with hn2 | hn2
            · have hn3 : n = name ∧ isDir = true := by
                by_cases hc : (isDir && keep) = true
                · rw [if_pos hc] at hn2
                  have hb := (Bool.and_eq_true isDir keep).mp hc
                  simp at hn2
                  exact ⟨hn2, hb.1⟩
                · rw [if_neg hc] at hn2
                  simp at hn2
              obtain ⟨rfl, hd2⟩ := hn3
              rw [hd2]
              exact List.mem_cons_self _ _
            · exact List.mem_cons_of_mem _ (q6 n hn2)
        | true =>
          rw [procChildren_cons, hdesc, hrep]
          dsimp only
          rw [if_neg (show ¬((true : Bool) = false) by decide)]
          have hB : InterBundle d S
              (if !interRep && true then emitInters root S (ancestorsAsc d) else ([], S)) := by
            cases interRep with
            | false => simpa using interBundle_emit root d S
            | true => simpa using interBundle_skip d S (HIR rfl)
          have hIR2eq : (if !interRep && true then true else interRep) = true := by
            cases interRep <;> simp
          rw [hIR2eq]
          have hS2x : ∀ x,
              (x ∈ (if isDir then
                  (d ++ [name]) ::
                    (if !interRep && true then emitInters root S (ancestorsAsc d)
                     else ([], S)).2
                else (if !interRep && true then emitInters root S (ancestorsAsc d)
                      else ([], S)).2)) ↔
              (((if isDir then
                  (⟨.DIRECTORY, root ++ (d ++ [name]), d ++ [name], name, none⟩ : FSNodeEntry)
                else ⟨.FILE, root ++ (d ++ [name]), d ++ [name], name, none⟩).type =
                    FSNodeType.DIRECTORY ∧ x = d ++ [name]) ∨
                x ∈ (if !interRep && true then emitInters root S (ancestorsAsc d)
                     else ([], S)).2) := by
            intro x
            cases isDir <;> simp
          have hfresh3 : ∀ n, (n, true) ∈ rest →
              d ++ [n] ∉ (if isDir then
                  (d ++ [name]) ::
                    (if !interRep && true then emitInters root S (ancestorsAsc d)
                     else ([], S)).2
                else (if !interRep && true then emitInters root S (ancestorsAsc d)
                      else ([], S)).2) := by
            intro n hn hc
            rcases (hS2x _).mp hc with ⟨htd, heq⟩ | hc2
            · have hisd : isDir = true := by
                cases isDir
                · simp at htd
                · rfl
              have hnn : n = name := by
                have h2 := List.append_cancel_left heq
                simpa using h2
              rw [hisd] at HnodupA
              have Hnd2 : (name :: ((rest.filter fun c => c.2).map Prod.fst)).Nodup := by
                simpa using HnodupA
              have hnotin : name ∉ (rest.filter fun c => c.2).map Prod.fst :=
                (List.nodup_cons.mp Hnd2).1
              have hmemn : n ∈ (rest.filter fun c => c.2).map Prod.fst :=
                List.mem_map.mpr ⟨(n, true), List.mem_filter.mpr ⟨hn, rfl⟩, rfl⟩
              rw [hnn] at hmemn
              exact hnotin hmemn
            · rcases (hB.1 _).mp hc2 with h | ⟨e, he, hrel⟩
              · exact Hfresh2 n hn h
              · have hchain := (hB.2.1 e he).2.1
                have hlen := (length_mem_ancestorsAsc hchain).2
                rw [hrel, List.length_append, List.length_singleton] at hlen
                omega
          have hIR3 : (true = true) → ∀ p ∈ ancestorsAsc d,
              p ∈ (if isDir then
                  (d ++ [name]) ::
                    (if !interRep && true then emitInters root S (ancestorsAsc d)
                     else ([], S)).2
                else (if !interRep && true then emitInters root S (ancestorsAsc d)
                      else ([], S)).2) := by
            intro hEq p hp
            exact (hS2x p).mpr (Or.inr (hB.2.2.2.1 p hp))
          refine reportStep_spec d name isDir rest S _ _ _ _ _ hB
            (by cases isDir <;> rfl) hS2x (by cases isDir <;> simp) ?_ ?_
            (ih _ true hfresh3 Hnodup2 hIR3)
          · intro n hn
            by_cases hc : (isDir && keep) = true
            · rw [if_pos hc] at hn
              have hb := (Bool.and_eq_true isDir keep).mp hc
              simp at hn
              exact ⟨hn, hb.1⟩
            · rw [if_neg hc] at hn
              simp at hn
          · intro htd
            have hisd : isDir = true := by
              cases isDir
              · simp at htd
              · rfl
            refine Hfresh name ?_
            rw [← hisd]
            exact List.mem_cons_self _ _

theorem not_SPre_child_of_short {d p : List String} (ns : String)
    (hlen : p.length ≤ d.length + 1) : ¬SPre (d ++ [ns]) p := by
  intro h
  have := SPre_length h
  rw [List.length_append, List.length_singleton] at this
  omega

theorem not_SPre_child_of_ext {d p : List String} {nm ns : String}
    (hne : ns ≠ nm) (r2 : List String) (hr2 : p = (d ++ [nm]) ++ r2) :
    ¬SPre (d ++ [ns]) p := by
  rintro ⟨r3, hr3, hp⟩
  rw [hr2, List.append_assoc, List.append_assoc] at hp
  have h2 := List.append_cancel_left hp
  rw [List.cons_append, List.cons_append] at h2
  injection h2 with h3 h4
  exact hne h3.symm

theorem PreComp_of_child {d p : List String} (ns : String)
    (h : PreComp (d ++ [ns]) p) : PreComp d p := by
  rcases h with ⟨r, hr⟩ | ⟨r, hr⟩
  · cases r with
    | nil =>
      rw [List.append_nil] at hr
      exact Or.inr ⟨[ns], hr⟩
    | cons a as =>
      have hlen : p.length + (a :: as).length = d.length + 1 := by
        have := congrArg List.length hr
        simpa [List.length_append] using this
      have hple : p.length ≤ d.length := by
        simp only [List.length_cons] at hlen
        omega
      have hp : p = d.take p.length := by
        have h1 : p = (p ++ a :: as).take p.length := (List.take_left p (a :: as)).symm
        rw [hr, List.take_append_of_le_length hple] at h1
        exact h1
      refine Or.inl ⟨d.drop p.length, ?_⟩
      nth_rewrite 1 [hp]
      exact List.take_append_drop p.length d
  · exact Or.inr ⟨[ns] ++ r, by rw [hr, List.append_assoc]⟩

theorem filterDirs_join (dns fns : List String) :
    ((joinDirsAndFiles dns fns).filter fun c => c.2).map Prod.fst = dns := by
  unfold joinDirsAndFiles
  rw [List.filter_append]
  have h1 : ((dns.map fun d => (d, true)).filter fun c => c.2) = dns.map fun d => (d, true) := by
    rw [List.filter_eq_self]
    intro a ha
    obtain ⟨x, -, rfl⟩ := List.mem_map.mp ha
    rfl
  have h2 : ((fns.map fun f => (f, false)).filter fun c => c.2) = [] := by
    rw [List.filter_eq_nil_iff]
    intro a ha
    obtain ⟨x, -, rfl⟩ := List.mem_map.mp ha
    simp
  rw [h1, h2, List.append_nil, List.map_map]
  exact List.map_id dns

theorem mem_join_true (dns fns : List String) (name : String) :
    (name, true) ∈ joinDirsAndFiles dns fns ↔ name ∈ dns := by
  unfold joinDirsAndFiles
  rw [List.mem_append]
  constructor
  · rintro (h | h)
    · obtain ⟨x, hx, heq⟩ := List.mem_map.mp h
      injection heq with h1 h2
      exact h1 ▸ hx
    · obtain ⟨x, hx, heq⟩ := List.mem_map.mp h
      injection heq with h1 h2
      cases h2
  · intro h
    exact Or.inl (List.mem_map.mpr ⟨name, h, rfl⟩)

theorem nodup_of_nodupNames : ∀ l : List String, nodupNames l = true → l.Nodup := by
  intro l
  induction l with
  | nil => intro h; exact List.nodup_nil
  | cons n ns ih =>
    intro h
    rw [nodupNames, Bool.and_eq_true] at h
    refine List.nodup_cons.mpr ⟨?_, ih h.2⟩
    intro hc
    have h2 := h.1
    rw [Bool.not_eq_true'] at h2
    have h3 : ns.contains n = true := List.elem_eq_true_of_mem hc
    rw [h3] at h2
    cases h2

/-- The invariant conclusions for one `os.walk` event together with the
events of its whole (surviving) subtree. -/
def WalkConc (d : List String) (S : List (List String))
    (res : List FSNodeEntry × List (List String) × Bool) : Prop :=
  (∀ x, x ∈ res.2.1 ↔ x ∈ S ∨ x ∈ dirRels res.1) ∧
  (dirRels res.1).Nodup ∧
  (∀ p ∈ dirRels res.1, p ∉ S) ∧
  (∀ p ∈ dirRels res.1, PreComp d p) ∧
  AncOK S res.1

/-- The invariant conclusions for the walk of a list of sibling subtrees. -/
def SubdirsConc (d : List String) (names : List String) (S : List (List String))
    (res : List FSNodeEntry × List (List String) × Bool) : Prop :=
  (∀ x, x ∈ res.2.1 ↔ x ∈ S ∨ x ∈ dirRels res.1) ∧
  (dirRels res.1).Nodup ∧
  (∀ p ∈ dirRels res.1, p ∉ S) ∧
  (∀ p ∈ dirRels res.1, ∃ ns ∈ names, PreComp (d ++ [ns]) p) ∧
  AncOK S res.1

theorem processDir_eq (m : MatcherV) (inter : Bool) (root d : List String)
    (subs : List (String × FSDir)) (files : List String) (S : List (List String)) :
    processDir m inter root d (.mk subs files) S =
      (if (procChildren m inter root d (joinDirsAndFiles (subs.map Prod.fst) files)
            S false).2.2.2 then
        ((procChildren m inter root d (joinDirsAndFiles (subs.map Prod.fst) files)
            S false).1 ++
          (procSubdirs m inter root d subs
            (procChildren m inter root d (joinDirsAndFiles (subs.map Prod.fst) files)
              S false).2.2.1
            (procChildren m inter root d (joinDirsAndFiles (subs.map Prod.fst) files)
              S false).2.1).1,
         (procSubdirs m inter root d subs
            (procChildren m inter root d (joinDirsAndFiles (subs.map Prod.fst) files)
              S false).2.2.1
            (procChildren m inter root d (joinDirsAndFiles (subs.map Prod.fst) files)
              S false).2.1).2.1,
         (procSubdirs m inter root d subs
            (procChildren m inter root d (joinDirsAndFiles (subs.map Prod.fst) files)
              S false).2.2.1
            (procChildren m inter root d (joinDirsAndFiles (subs.map Prod.fst) files)
              S false).2.1).2.2)
      else
        ((procChildren m inter root d (joinDirsAndFiles (subs.map Prod.fst) files)
            S false).1,
         (procChildren m inter root d (joinDirsAndFiles (subs.map Prod.fst) files)
            S false).2.1,
         false)) := rfl

theorem procSubdirs_nil (m : MatcherV) (inter : Bool) (root d : List String)
    (kept : List String) (S : List (List String)) :
    procSubdirs m inter root d [] kept S = ([], S, true) := rfl

theorem procSubdirs_cons (m : MatcherV) (inter : Bool) (root d : List String)
    (nm : String) (sub : FSDir) (rest : List (String × FSDir))
    (kept : List String) (S : List (List String)) :
    procSubdirs m inter root d ((nm, sub) :: rest) kept S =
      (if nm ∈ kept then
        (if (processDir m inter root (d ++ [nm]) sub S).2.2 then
          ((processDir m inter root (d ++ [nm]) sub S).1 ++
            (procSubdirs m inter root d rest kept
              (processDir m inter root (d ++ [nm]) sub S).2.1).1,
           (procSubdirs m inter root d rest kept
              (processDir m inter root (d ++ [nm]) sub S).2.1).2.1,
           (procSubdirs m inter root d rest kept
              (processDir m inter root (d ++ [nm]) sub S).2.1).2.2)
        else
          ((processDir m inter root (d ++ [nm]) sub S).1,
           (processDir m inter root (d ++ [nm]) sub S).2.1,
           false))
      else procSubdirs m inter root d rest kept S) := rfl

mutual

/-- The walk invariant for one directory event and its surviving subtree:
starting from a set none of whose members lies strictly below `d`, the
produced stream has a set-characterized update, pairwise-distinct fresh
directory paths all comparable with `d`, and is ancestors-sound. -/
theorem processDir_spec (m : MatcherV) (root : List String) :
    (t : FSDir) → ∀ (d : List String) (S : List (List String)),
      validB t = true → (∀ p ∈ S, ¬SPre d p) →
      WalkConc d S (processDir m true root d t S)
  | .mk subs files => by
    intro d S hv hp1
    rw [processDir_eq]
    have hv2 : (nodupNames (subs.map Prod.fst) && validSubs subs) = true := hv
    rw [Bool.and_eq_true] at hv2
    obtain ⟨hnn, hvs⟩ := hv2
    have Hfresh : ∀ name, (name, true) ∈ joinDirsAndFiles (subs.map Prod.fst) files →
        d ++ [name] ∉ S := by
      intro name hmem hc
      exact hp1 _ hc ⟨[name], by simp, rfl⟩
    have Hnodup : (((joinDirsAndFiles (subs.map Prod.fst) files).filter
        fun c => c.2).map Prod.fst).Nodup := by
      rw [filterDirs_join]
      exact nodup_of_nodupNames _ hnn
    obtain ⟨c1, c2, c3, c4, c5, c6⟩ :=
      procChildren_spec m root d (joinDirsAndFiles (subs.map Prod.fst) files) S false
        Hfresh Hnodup (fun h => absurd h (by decide))
    cases hok : (procChildren m true root d (joinDirsAndFiles (subs.map Prod.fst) files)
        S false).2.2.2 with
    | false =>
      rw [if_neg (by decide)]
      refine ⟨c1, c2, c3, ?_, c5⟩
      intro p hp
      rcases c4 p hp with ⟨r, hr⟩ | ⟨nm2, -, hpe⟩
      · exact Or.inl ⟨r, hr⟩
      · exact Or.inr ⟨[nm2], hpe⟩
    | true =>
      rw [if_pos rfl]
      have HS1 : ∀ p ∈ (procChildren m true root d
          (joinDirsAndFiles (subs.map Prod.fst) files) S false).2.1,
          ∀ ns ∈ subs.map Prod.fst, ¬SPre (d ++ [ns]) p := by
        intro p hpmem ns hns
        rcases (c1 p).mp hpmem with hpS | hpd
        · intro hS
          exact hp1 p hpS (SPre_of_SPre_append ns hS)
        · rcases c4 p hpd with ⟨r, hr⟩ | ⟨nm2, -, hpe⟩
          · refine not_SPre_child_of_short ns ?_
            have hlen := congrArg List.length hr
            rw [List.length_append] at hlen
            omega
          · refine not_SPre_child_of_short ns ?_
            rw [hpe, List.length_append, List.length_singleton]
      obtain ⟨s1, s2, s3, s4, s5⟩ :=
        procSubdirs_spec m root subs d
          (procChildren m true root d (joinDirsAndFiles (subs.map Prod.fst) files)
            S false).2.2.1
          (procChildren m true root d (joinDirsAndFiles (subs.map Prod.fst) files)
            S false).2.1
          hvs (nodup_of_nodupNames _ hnn) HS1
      refine ⟨?_, ?_, ?_, ?_, ?_⟩
      · intro x
        rw [dirRels_append]
        rw [s1 x, c1 x, List.mem_append]
        tauto
      · rw [dirRels_append, List.nodup_append]
        refine ⟨c2, s2, ?_⟩
        intro a ha hb
        exact s3 a hb ((c1 a).mpr (Or.inr ha))
      · intro p hp
        rw [dirRels_append, List.mem_append] at hp
        rcases hp with hp | hp
        · exact c3 p hp
        · intro hc
          exact s3 p hp ((c1 p).mpr (Or.inl hc))
      · intro p hp
        rw [dirRels_append, List.mem_append] at hp
        rcases hp with hp | hp
        · rcases c4 p hp with ⟨r, hr⟩ | ⟨nm2, -, hpe⟩
          · exact Or.inl ⟨r, hr⟩
          · exact Or.inr ⟨[nm2], hpe⟩
        · obtain ⟨ns, -, hcomp⟩ := s4 p hp
          exact PreComp_of_child ns hcomp
      · refine AncOK_append S _ c5 s5 ?_
        intro x hx
        rcases (c1 x).mp hx with h | h
        · exact Or.inl h
        · obtain ⟨e, he, ht, hr⟩ := mem_dirRels.mp h
          exact Or.inr ⟨e, he, ht, hr⟩

/-- The walk invariant for the recursion into a list of sibling subtrees. -/
theorem procSubdirs_spec (m : MatcherV) (root : List String) :
    (subs : List (String × FSDir)) → ∀ (d : List String) (kept : List String)
      (S : List (List String)),
      validSubs subs = true → (subs.map Prod.fst).Nodup →
      (∀ p ∈ S, ∀ ns ∈ subs.map Prod.fst, ¬SPre (d ++ [ns]) p) →
      SubdirsConc d (subs.map Prod.fst) S (procSubdirs m true root d subs kept S)
  | [] => by
    intro d kept S hval hnodup HS1
    rw [procSubdirs_nil]
    refine ⟨fun x => by simp [dirRels], by simp [dirRels], ?_, ?_, AncOK_nil S⟩
    · intro p hp; simp [dirRels] at hp
    · intro p hp; simp [dirRels] at hp
  | (nm, sub) :: rest => by
    intro d kept S hval hnodup HS1
    have hv2 : (validB sub && validSubs rest) = true := hval
    rw [Bool.and_eq_true] at hv2
    obtain ⟨hvsub, hvrest⟩ := hv2
    have hnmni : nm ∉ rest.map Prod.fst :=
      (List.nodup_cons.mp (by simpa using hnodup)).1
    have hnodup2 : (rest.map Prod.fst).Nodup :=
      (List.nodup_cons.mp (by simpa using hnodup)).2
    rw [procSubdirs_cons]
    by_cases hk : nm ∈ kept
    · rw [if_pos hk]
      obtain ⟨w1, w2, w3, w4, w5⟩ :=
        processDir_spec m root sub (d ++ [nm]) S hvsub
          (fun p hp => HS1 p hp nm (by simp))
      cases hok : (processDir m true root (d ++ [nm]) sub S).2.2 with
      | false =>
        rw [if_neg (by decide)]
        refine ⟨w1, w2, w3, ?_, w5⟩
        intro p hp
        exact ⟨nm, by simp, w4 p hp⟩
      | true =>
        rw [if_pos rfl]
        have HS1b : ∀ p ∈ (processDir m true root (d ++ [nm]) sub S).2.1,
            ∀ ns ∈ rest.map Prod.fst, ¬SPre (d ++ [ns]) p := by
          intro p hp ns hns
          rcases (w1 p).mp hp with hpS | hpd2
          · exact HS1 p hpS ns (by simp [hns])
          · rcases w4 p hpd2 with ⟨r, hr⟩ | ⟨r, hr⟩
            · refine not_SPre_child_of_short ns ?_
              have hlen := congrArg List.length hr
              rw [List.length_append, List.length_append, List.length_singleton] at hlen
              omega
            · refine not_SPre_child_of_ext ?_ r hr
              intro hEq
              exact hnmni (hEq ▸ hns)
        obtain ⟨s1, s2, s3, s4, s5⟩ :=
          procSubdirs_spec m root rest d kept
            (processDir m true root (d ++ [nm]) sub S).2.1 hvrest hnodup2 HS1b
        refine ⟨?_, ?_, ?_, ?_, ?_⟩
        · intro x
          rw [dirRels_append]
          rw [s1 x, w1 x, List.mem_append]
          tauto
        · rw [dirRels_append, List.nodup_append]
          refine ⟨w2, s2, ?_⟩
          intro a ha hb
          exact s3 a hb ((w1 a).mpr (Or.inr ha))
        · intro p hp
          rw [dirRels_append, List.mem_append] at hp
          rcases hp with hp | hp
          · exact w3 p hp
          · intro hc
            exact s3 p hp ((w1 p).mpr (Or.inl hc))
        · intro p hp
          rw [dirRels_append, List.mem_append] at hp
          rcases hp with hp | hp
          · exact ⟨nm, by simp, w4 p hp⟩
          · obtain ⟨ns, hns, hcomp⟩ := s4 p hp
            exact ⟨ns, by simp [hns], hcomp⟩
        · refine AncOK_append S _ w5 s5 ?_
          intro x hx
          rcases (w1 x).mp hx with h | h
          · exact Or.inl h
          · obtain ⟨e, he, ht, hr⟩ := mem_dirRels.mp h
            exact Or.inr ⟨e, he, ht, hr⟩
    · rw [if_neg hk]
      obtain ⟨s1, s2, s3, s4, s5⟩ :=
        procSubdirs_spec m root rest d kept S hvrest hnodup2
          (fun p hp ns hns => HS1 p hp ns (by simp [hns]))
      refine ⟨s1, s2, s3, ?_, s5⟩
      intro p hp
      obtain ⟨ns, hns, hcomp⟩ := s4 p hp
      exact ⟨ns, by simp [hns], hcomp⟩

end

/-- C1: in every traversal with intermediate-directory reporting enabled
(over a valid tree: sibling subdirectory names distinct), (1) the relative
paths of the yielded `DIRECTORY` entries are pairwise distinct — each
directory is yielded at most once even when several children independently
trigger its synthesis; (2) every yielded entry has each of its strict
ancestors (up to and including the root `[]`) yielded earlier as a
`DIRECTORY` entry; and (3) the ancestors appear in root-to-leaf order: for
ancestors `q1 ⊏ q2` of an entry, `q2`'s directory entry appears before the
entry and `q1`'s before that.  This holds for every matcher, including ones
that raise (the stream is then the prefix before the exception). -/
theorem c1_walk_ancestors_unique (root : List String) (t : FSDir) (m : MatcherV)
    (hv : validB t = true) :
    (dirRels (walkModel root t m true).1).Nodup ∧
    (∀ pre e post, (walkModel root t m true).1 = pre ++ e :: post →
      ∀ q, SPre q e.relpath →
        ∃ e2 ∈ pre, e2.type = FSNodeType.DIRECTORY ∧ e2.relpath = q) ∧
    (∀ pre e post, (walkModel root t m true).1 = pre ++ e :: post →
      ∀ q1 q2, SPre q1 q2 → SPre q2 e.relpath →
        ∃ pre2 e2 post2, pre = pre2 ++ e2 :: post2 ∧
          e2.type = FSNodeType.DIRECTORY ∧ e2.relpath = q2 ∧
          ∃ e3 ∈ pre2, e3.type = FSNodeType.DIRECTORY ∧ e3.relpath = q1) := by
  have hp1 : ∀ p ∈ [([] : List String)], ¬SPre ([] : List String) p := by
    intro p hp
    simp at hp
    rw [hp]
    exact not_SPre_nil_right []
  obtain ⟨w1, w2, w3, w4, w5⟩ := processDir_spec m root t [] [[]] hv hp1
  have hwm : (walkModel root t m true).1 =
      (⟨.DIRECTORY, root, [], ".", none⟩ : FSNodeEntry) ::
        (processDir m true root [] t [[]]).1 := rfl
  have hanc : ∀ pre e post, (walkModel root t m true).1 = pre ++ e :: post →
      ∀ q, SPre q e.relpath →
        ∃ e2 ∈ pre, e2.type = FSNodeType.DIRECTORY ∧ e2.relpath = q := by
    intro pre e post hsplit q hq
    rw [hwm] at hsplit
    cases pre with
    | nil =>
      simp only [List.nil_append, List.cons.injEq] at hsplit
      obtain ⟨rfl, -⟩ := hsplit
      exact absurd hq (not_SPre_nil_right q)
    | cons e0 pre2 =>
      simp only [List.cons_append, List.cons.injEq] at hsplit
      obtain ⟨rfl, hsplit2⟩ := hsplit
      by_cases hqe : q = []
      · subst hqe
        exact ⟨_, List.mem_cons_self _ _, rfl, rfl⟩
      · rcases w5 pre2 e post hsplit2 q hq hqe with h | ⟨e2, he2, ht2, hr2⟩
        · simp at h
          exact absurd h hqe
        · exact ⟨e2, List.mem_cons_of_mem _ he2, ht2, hr2⟩
  refine ⟨?_, hanc, ?_⟩
  · rw [hwm, dirRels_cons_dir _ rfl]
    refine List.nodup_cons.mpr ⟨?_, w2⟩
    intro hc
    exact w3 _ hc (by simp)
  · intro pre e post hsplit q1 q2 h12 h2e
    obtain ⟨e2, he2, ht2, hr2⟩ := hanc pre e post hsplit q2 h2e
    obtain ⟨pre2, post2, hpre⟩ := List.append_of_mem he2
    refine ⟨pre2, e2, post2, hpre, ht2, hr2, ?_⟩
    have hsplit2 : (walkModel root t m true).1 = pre2 ++ e2 :: (post2 ++ e :: post) := by
      rw [hsplit, hpre]
      simp
    obtain ⟨e3, he3, ht3, hr3⟩ :=
      hanc pre2 e2 (post2 ++ e :: post) hsplit2 q1 (by rw [hr2]; exact h12)
    exact ⟨e3, he3, ht3, hr3⟩

theorem c1_walk_ancestors_unique_witness :
    validB (FSDir.mk [("a", FSDir.mk [("b", FSDir.mk [] ["c.txt"])] [])] ["d.txt"]) = true ∧
    ((dirRels (walkModel ["r"]
        (FSDir.mk [("a", FSDir.mk [("b", FSDir.mk [] ["c.txt"])] [])] ["d.txt"])
        MatcherV.dummy true).1).Nodup ∧
    (∀ pre e post, (walkModel ["r"]
        (FSDir.mk [("a", FSDir.mk [("b", FSDir.mk [] ["c.txt"])] [])] ["d.txt"])
        MatcherV.dummy true).1 = pre ++ e :: post →
      ∀ q, SPre q e.relpath →
        ∃ e2 ∈ pre, e2.type = FSNodeType.DIRECTORY ∧ e2.relpath = q) ∧
    (∀ pre e post, (walkModel ["r"]
        (FSDir.mk [("a", FSDir.mk [("b", FSDir.mk [] ["c.txt"])] [])] ["d.txt"])
        MatcherV.dummy true).1 = pre ++ e :: post →
      ∀ q1 q2, SPre q1 q2 → SPre q2 e.relpath →
        ∃ pre2 e2 post2, pre = pre2 ++ e2 :: post2 ∧
          e2.type = FSNodeType.DIRECTORY ∧ e2.relpath = q2 ∧
          ∃ e3 ∈ pre2, e3.type = FSNodeType.DIRECTORY ∧ e3.relpath = q1)) :=
  ⟨by decide,
   c1_walk_ancestors_unique ["r"]
     (FSDir.mk [("a", FSDir.mk [("b", FSDir.mk [] ["c.txt"])] [])] ["d.txt"])
     MatcherV.dummy (by decide)⟩

end FileScanner
